import Mathlib

/-!
# Scheduling simulators of `lab2anisimov/main.cpp`

A shallow embedding of `struct Process` and of the three simulators of
`class ProcessScheduler` (`simulateFCFS`, `simulateRoundRobin`,
`simulatePriorityScheduling`).

Conventions of the embedding:

* C++ `int` is `Int`.  Signed overflow is undefined behaviour in C++, so every
  statement is about runs in which no `int` overflows.
* `std::vector<Process>` is `List Process`; a `Process*` into the vector
  `rrProcesses` is the index of the element it points to.
* The `double` accumulators only ever hold sums of `int`s and are `Int`; the
  final divisions and every `std::cout` line are output only and are left out.
* `std::sort` is library code.  The simulator that calls it takes the sorting
  function as a parameter, and `IsStdSort` is the contract the C++ standard
  gives for it.  Where the outcome depends on what the library does with
  elements that compare equivalent, the parameter is `gnuStdSort`, which
  follows the implementation of GNU libstdc++.
* The `while` loop of `simulateRoundRobin` is run with an iteration budget
  (`rrLoop`); `rrRun` gives the state at the loop head after `k` iterations.
* For the question which vector a simulator writes, the member `processes` and
  the local copy are the two vectors of a `Store`, and a `Process&` or
  `Process*` is a `Ref` that names its vector (`callFCFS`, `callRoundRobin`,
  `callPriorityScheduling`).
-/

namespace Lab2Anisimov

/-- The record `struct Process` (main.cpp, lines 13-27). -/
structure Process where
  id : Int
  arrivalTime : Int
  burstTime : Int
  remainingTime : Int
  priority : Int
  waitingTime : Int
  completionTime : Int
  deriving DecidableEq, Repr, Inhabited

/-- The constructor `Process(int _id, int _arrival, int _burst, int _priority)`
(lines 22-26). -/
def Process.new (_id _arrival _burst _priority : Int) : Process :=
  { id := _id, arrivalTime := _arrival, burstTime := _burst,
    remainingTime := _burst, priority := _priority,
    waitingTime := 0, completionTime := 0 }

/-! ## FCFS (lines 58-95) -/

/-- The local variables of `simulateFCFS` that live across loop iterations,
together with the elements of `fcfsProcesses` already visited. -/
structure FCFSState where
  fcfsProcesses : List Process
  currentTime : Int
  totalWaitingTime : Int
  totalTurnaroundTime : Int
  deriving DecidableEq, Repr

/-- One iteration of `for (auto& process : fcfsProcesses)` (lines 66-87): the
clock on entry, the element visited; returns the clock on exit and the element
as the iteration leaves it. -/
def fcfsVisit (currentTime : Int) (process : Process) : Int × Process :=
  let currentTime := if currentTime < process.arrivalTime then process.arrivalTime else currentTime
  let process := { process with waitingTime := currentTime - process.arrivalTime }
  let currentTime := currentTime + process.burstTime
  let process := { process with completionTime := currentTime }
  (currentTime, process)

/-- The loop of `simulateFCFS` over the elements still to visit. -/
def fcfsLoop : FCFSState → List Process → FCFSState
  | st, [] => st
  | st, process :: rest =>
    let r := fcfsVisit st.currentTime process
    let turnaroundTime := r.2.completionTime - r.2.arrivalTime
    fcfsLoop
      { fcfsProcesses := st.fcfsProcesses ++ [r.2]
        currentTime := r.1
        totalWaitingTime := st.totalWaitingTime + r.2.waitingTime
        totalTurnaroundTime := st.totalTurnaroundTime + turnaroundTime }
      rest

/-- The function `ProcessScheduler::simulateFCFS` on the member `processes`:
the final values of its local variables. -/
def simulateFCFS (processes : List Process) : FCFSState :=
  fcfsLoop
    { fcfsProcesses := [], currentTime := 0, totalWaitingTime := 0, totalTurnaroundTime := 0 }
    processes

/-! ## Priority scheduling (lines 154-195) -/

/-- The comparator of line 163-165, `a.priority < b.priority`. -/
def priorityLess (a b : Process) : Bool :=
  decide (a.priority < b.priority)

/-- What the C++ standard guarantees of `std::sort(first, last, comp)`: the
range afterwards holds the same elements, and no later element compares less
than an earlier one.  Nothing is said about elements that compare equivalent. -/
structure IsStdSort (comp : Process → Process → Bool)
    (sort : List Process → List Process) : Prop where
  perm : ∀ l, (sort l).Perm l
  sorted : ∀ l, (sort l).Pairwise (fun a b => comp b a = false)

/-- The local variables of `simulatePriorityScheduling` that live across loop
iterations, together with the elements already visited. -/
structure PriorityState where
  priorityProcesses : List Process
  currentTime : Int
  totalWaitingTime : Int
  totalTurnaroundTime : Int
  deriving DecidableEq, Repr

/-- One iteration of `for (auto& process : priorityProcesses)` (lines 167-187). -/
def priorityVisit (currentTime : Int) (process : Process) : Int × Process :=
  let currentTime := if currentTime < process.arrivalTime then process.arrivalTime else currentTime
  let process := { process with waitingTime := currentTime - process.arrivalTime }
  let currentTime := currentTime + process.burstTime
  let process := { process with completionTime := currentTime }
  (currentTime, process)

/-- The loop of `simulatePriorityScheduling` over the elements still to visit. -/
def priorityLoop : PriorityState → List Process → PriorityState
  | st, [] => st
  | st, process :: rest =>
    let r := priorityVisit st.currentTime process
    let turnaroundTime := r.2.completionTime - r.2.arrivalTime
    priorityLoop
      { priorityProcesses := st.priorityProcesses ++ [r.2]
        currentTime := r.1
        totalWaitingTime := st.totalWaitingTime + r.2.waitingTime
        totalTurnaroundTime := st.totalTurnaroundTime + turnaroundTime }
      rest

/-- The sequence the loop of `simulatePriorityScheduling` iterates over: the
copy of `processes` after the `std::sort` call of lines 162-165. -/
def prioritySorted (sort : List Process → List Process) (processes : List Process) :
    List Process :=
  sort processes

/-- The function `ProcessScheduler::simulatePriorityScheduling` on the member
`processes`; `sort` is `std::sort` with the comparator `priorityLess`. -/
def simulatePriorityScheduling (sort : List Process → List Process)
    (processes : List Process) : PriorityState :=
  priorityLoop
    { priorityProcesses := [], currentTime := 0, totalWaitingTime := 0,
      totalTurnaroundTime := 0 }
    (prioritySorted sort processes)

/-! ## Round Robin (lines 97-152) -/

/-- The element of the vector that a `Process*` with index `i` points to. -/
def procAt (procs : List Process) (i : Nat) : Process :=
  procs.getD i default

/-- A scan `for (auto& process : rrProcesses) if (c(process)) readyQueue.push(&process)`:
the pointers pushed, in vector order.  `c` sees the index (the address) and the
element. -/
def scan (procs : List Process) (c : Nat → Process → Bool) : List Nat :=
  (List.range procs.length).filter (fun i => c i (procAt procs i))

/-- The local variables of `simulateRoundRobin` that the loop reads or writes
(`totalWaitingTime` is declared on line 103 and never used).  The counter
`processesCompleted` is an `int` that starts at 0 and is only incremented, so
its conversion to `size_t` in the loop condition keeps its value. -/
structure RRState where
  rrProcesses : List Process
  readyQueue : List Nat
  currentTime : Int
  processesCompleted : Nat
  deriving DecidableEq, Repr

/-- The state on reaching the `while` of line 112: the copy of `processes` and
the scan of lines 106-110. -/
def rrInit (processes : List Process) : RRState :=
  { rrProcesses := processes
    readyQueue := scan processes (fun _ process => process.arrivalTime == 0)
    currentTime := 0
    processesCompleted := 0 }

/-- The loop condition of line 112,
`!readyQueue.empty() || processesCompleted < rrProcesses.size()`. -/
def rrCond (st : RRState) : Bool :=
  !st.readyQueue.isEmpty || decide (st.processesCompleted < st.rrProcesses.length)

/-- The ready queue after the admission scan of lines 113-117. -/
def admission (st : RRState) : List Nat :=
  st.readyQueue ++
    scan st.rrProcesses (fun _ process => process.arrivalTime == st.currentTime)

/-- The branch `if (!readyQueue.empty())` of lines 119-147, entered with
`currentProcess` at the front of the queue and `readyQueue` behind it: pop,
execute one slice, re-scan, then record completion or re-enqueue. -/
def runSlice (timeQuantum : Int) (st : RRState) (currentProcess : Nat) (readyQueue : List Nat) :
    RRState :=
  let p := procAt st.rrProcesses currentProcess
  let executionTime := min timeQuantum p.remainingTime
  let p := { p with remainingTime := p.remainingTime - executionTime }
  let rrProcesses := st.rrProcesses.set currentProcess p
  let currentTime := st.currentTime + executionTime
  let readyQueue := readyQueue ++
    scan rrProcesses (fun i process =>
      decide (process.arrivalTime ≤ currentTime) && decide (process.remainingTime > 0)
        && decide (i ≠ currentProcess))
  if p.remainingTime ≤ 0 then
    { rrProcesses := rrProcesses.set currentProcess { p with completionTime := currentTime }
      readyQueue := readyQueue
      currentTime := currentTime
      processesCompleted := st.processesCompleted + 1 }
  else
    { rrProcesses := rrProcesses
      readyQueue := readyQueue ++ [currentProcess]
      currentTime := currentTime
      processesCompleted := st.processesCompleted }

/-- One iteration of the `while` body (lines 113-150): the admission scan, then
either a slice of the process at the front of the queue or, with the queue
empty, the idle tick `currentTime++` of line 149. -/
def rrIter (timeQuantum : Int) (st : RRState) : RRState :=
  match admission st with
  | [] => { st with readyQueue := [], currentTime := st.currentTime + 1 }
  | currentProcess :: readyQueue => runSlice timeQuantum st currentProcess readyQueue

/-- The `while` loop of lines 112-151, run for at most `fuel` iterations:
`some st` is the state in which the loop exits, `none` means it is still running
after `fuel` iterations. -/
def rrLoop (timeQuantum : Int) : Nat → RRState → Option RRState
  | 0, st => if rrCond st then none else some st
  | fuel + 1, st => if rrCond st then rrLoop timeQuantum fuel (rrIter timeQuantum st) else some st

/-- The function `ProcessScheduler::simulateRoundRobin(timeQuantum)` on the
member `processes`, bounded to `fuel` loop iterations. -/
def simulateRoundRobin (fuel : Nat) (timeQuantum : Int) (processes : List Process) :
    Option RRState :=
  rrLoop timeQuantum fuel (rrInit processes)

/-- Insertion of one element into a sorted prefix, moving it left past every
element it compares less than: the inner loop of the insertion sort that the
common `std::sort` implementations run on short ranges. -/
def insertSorted (comp : Process → Process → Bool) (x : Process) : List Process → List Process
  | [] => [x]
  | y :: ys => if comp x y then x :: y :: ys else y :: insertSorted comp x ys

/-- Insertion sort with comparator `comp`; a conforming `std::sort` that keeps
equivalent elements in their input order. -/
def insertionSort (comp : Process → Process → Bool) (l : List Process) : List Process :=
  l.foldl (fun acc x => insertSorted comp x acc) []

/-- The clock of the specification after the first `k` processes, from the
recurrence `c_0 = c`, `c_(i+1) = max(c_i, arrivalTime_i) + burstTime_i`. -/
def specClockFrom (c : Int) (processes : List Process) (k : Nat) : Int :=
  (processes.take k).foldl (fun c p => max c p.arrivalTime + p.burstTime) c

/-- The record the specification prescribes for a process started with the
clock at `c`: `start = max(c, arrivalTime)`, `waitingTime = start - arrivalTime`,
`completionTime = start + burstTime`. -/
def specRecord (c : Int) (p : Process) : Process :=
  { p with
    waitingTime := max c p.arrivalTime - p.arrivalTime
    completionTime := max c p.arrivalTime + p.burstTime }

/-- The elements produced by the FCFS loop body started with the clock at `c`. -/
def fcfsTrace (c : Int) : List Process → List Process
  | [] => []
  | p :: ps => (fcfsVisit c p).2 :: fcfsTrace (fcfsVisit c p).1 ps

/-- The elements produced by the Priority loop body started with the clock at `c`. -/
def priorityTrace (c : Int) : List Process → List Process
  | [] => []
  | p :: ps => (priorityVisit c p).2 :: priorityTrace (priorityVisit c p).1 ps

/-- A process as the constructor of lines 22-26 leaves it. -/
def Constructed (p : Process) : Prop :=
  p.remainingTime = p.burstTime ∧ p.waitingTime = 0 ∧ p.completionTime = 0

/-- The data model of the specification for the member `processes`: every
element was built by the constructor, has `arrivalTime ≥ 0` and `burstTime ≥ 1`. -/
def DataModel (processes : List Process) : Prop :=
  ∀ p ∈ processes, Constructed p ∧ 0 ≤ p.arrivalTime ∧ 1 ≤ p.burstTime

/-- The input is sorted by arrival time, as `generateRandomProcesses` leaves it. -/
def SortedByArrival (processes : List Process) : Prop :=
  processes.Pairwise (fun a b => a.arrivalTime ≤ b.arrivalTime)

/-- Total work left: the sum of the positive `remainingTime` values. -/
def work (procs : List Process) : Nat :=
  (procs.map (fun p => p.remainingTime.toNat)).sum

/-- Number of entries of the ready queue that point to a process with no work left. -/
def staleEntries (st : RRState) : Nat :=
  st.readyQueue.countP (fun i => decide ((procAt st.rrProcesses i).remainingTime ≤ 0))

/-- The latest arrival time (0 for the empty vector). -/
def lastArrival (procs : List Process) : Int :=
  (procs.map (fun p => p.arrivalTime)).foldr max 0

/-- Ticks left until the latest arrival. -/
def idleBudget (st : RRState) : Nat :=
  (lastArrival st.rrProcesses - st.currentTime).toNat

/-- The invariant of the `while` loop of `simulateRoundRobin`, at the loop head:
queue entries point into the vector at processes that have arrived; no
`remainingTime` is negative; a process with no work left arrived strictly
before now; every such process has been counted in `processesCompleted`; every
process with work left that arrived strictly before now is in the queue. -/
structure RRInv (st : RRState) : Prop where
  queue_valid : ∀ i ∈ st.readyQueue,
    i < st.rrProcesses.length ∧ (procAt st.rrProcesses i).arrivalTime ≤ st.currentTime
  rem_nonneg : ∀ i, i < st.rrProcesses.length → 0 ≤ (procAt st.rrProcesses i).remainingTime
  started : ∀ i, i < st.rrProcesses.length → (procAt st.rrProcesses i).remainingTime ≤ 0 →
    (procAt st.rrProcesses i).arrivalTime < st.currentTime
  counted : st.rrProcesses.countP (fun p => decide (p.remainingTime ≤ 0)) ≤ st.processesCompleted
  ready : ∀ i, i < st.rrProcesses.length → 0 < (procAt st.rrProcesses i).remainingTime →
    (procAt st.rrProcesses i).arrivalTime < st.currentTime → i ∈ st.readyQueue

/-- The timing invariant of the `while` loop of `simulateRoundRobin`: a process
that has been given CPU time has received it after its arrival, and a process
with no work left has a `completionTime` of at least `arrivalTime + burstTime`. -/
structure RRTiming (st : RRState) : Prop where
  progress : ∀ i, i < st.rrProcesses.length →
    (procAt st.rrProcesses i).remainingTime = (procAt st.rrProcesses i).burstTime ∨
    (procAt st.rrProcesses i).arrivalTime + (procAt st.rrProcesses i).burstTime
      - (procAt st.rrProcesses i).remainingTime ≤ st.currentTime
  finished : ∀ i, i < st.rrProcesses.length → (procAt st.rrProcesses i).remainingTime ≤ 0 →
    (procAt st.rrProcesses i).arrivalTime + (procAt st.rrProcesses i).burstTime
      ≤ (procAt st.rrProcesses i).completionTime

/-- The state of the Round Robin loop after `k` iterations (or the state in
which it exited, when it exits earlier): the states the execution of
`simulateRoundRobin` passes through at the loop head. -/
def rrRun (timeQuantum : Int) : Nat → RRState → RRState
  | 0, st => st
  | k + 1, st => if rrCond st then rrRun timeQuantum k (rrIter timeQuantum st) else st

/-- The number of idle iterations (the `else` branch of line 148-150, taken
when the queue is empty after the admission scan) among the first `k`
iterations of the loop. -/
def idleIterations (timeQuantum : Int) : Nat → RRState → Nat
  | 0, _ => 0
  | k + 1, st =>
    if rrCond st then
      (if (admission st).isEmpty then 1 else 0) + idleIterations timeQuantum k (rrIter timeQuantum st)
    else 0

/-- The sum of the `remainingTime` values of a vector. -/
def remainingSum (procs : List Process) : Int :=
  (procs.map (fun p => p.remainingTime)).sum

/-- The sum of the `burstTime` values of a vector. -/
def burstSum (procs : List Process) : Int :=
  (procs.map (fun p => p.burstTime)).sum

/-- The data members of `class ProcessScheduler` that the simulators can see:
the vector `processes`.  (The random engine `gen` is used by
`generateRandomProcesses` only.) -/
structure ProcessScheduler where
  processes : List Process
  deriving DecidableEq, Repr

/-- The state at the head of the Round Robin loop after `k` iterations of a
call `simulateRoundRobin(timeQuantum)` on `processes`. -/
def rrAt (timeQuantum : Int) (processes : List Process) (k : Nat) : RRState :=
  rrRun timeQuantum k (rrInit processes)

/-- The value of `currentTime` in `simulateFCFS` after `k` iterations of its
loop (the loop over `processes` has then visited the first `k` elements). -/
def fcfsClockAfter (processes : List Process) (k : Nat) : Int :=
  (fcfsLoop { fcfsProcesses := [], currentTime := 0, totalWaitingTime := 0,
              totalTurnaroundTime := 0 } (processes.take k)).currentTime

/-- The value of `currentTime` in `simulatePriorityScheduling` after `k`
iterations of its loop (over the sorted copy). -/
def priorityClockAfter (sort : List Process → List Process) (processes : List Process)
    (k : Nat) : Int :=
  (priorityLoop { priorityProcesses := [], currentTime := 0, totalWaitingTime := 0,
                  totalTurnaroundTime := 0 } ((prioritySorted sort processes).take k)).currentTime

/-- The bounds on the Round Robin state that need no assumption on arrival
times: queue entries point into the vector, and every `remainingTime` lies
between 0 and the `burstTime` of its process. -/
structure RRBounds (st : RRState) : Prop where
  queue_lt : ∀ i ∈ st.readyQueue, i < st.rrProcesses.length
  rem_bounds : ∀ i, i < st.rrProcesses.length →
    0 ≤ (procAt st.rrProcesses i).remainingTime ∧
    (procAt st.rrProcesses i).remainingTime ≤ (procAt st.rrProcesses i).burstTime

/-- Every process with work left that has arrived by now is in the ready queue.
It holds when the loop is reached and after every iteration that runs a slice;
an idle tick can break it until the next admission scan. -/
def ReadyNow (st : RRState) : Prop :=
  ∀ i, i < st.rrProcesses.length → 0 < (procAt st.rrProcesses i).remainingTime →
    (procAt st.rrProcesses i).arrivalTime ≤ st.currentTime → i ∈ st.readyQueue

/-- The invariant of the Round Robin loop when every process arrives at 0. -/
structure RRAllAtZero (st : RRState) : Prop where
  inv : RRInv st
  bounds : RRBounds st
  readyNow : ReadyNow st
  clock_nonneg : 0 ≤ st.currentTime
  arrivals : ∀ i, i < st.rrProcesses.length → (procAt st.rrProcesses i).arrivalTime = 0

/-- The part of the loop invariant of Round Robin that says no process is in the
queue before it arrives; it needs every `remainingTime` to be non-negative, so
that the clock does not go back. -/
structure RRArrived (st : RRState) : Prop where
  queue_valid : ∀ i ∈ st.readyQueue,
    i < st.rrProcesses.length ∧ (procAt st.rrProcesses i).arrivalTime ≤ st.currentTime
  rem_nonneg : ∀ i, i < st.rrProcesses.length → 0 ≤ (procAt st.rrProcesses i).remainingTime

/-- The invariant of the Round Robin loop with `timeQuantum = 0` on `processes`,
where `i0` is a process that arrives at 0 with work to do. -/
structure RRStuck (processes : List Process) (i0 : Nat) (st : RRState) : Prop where
  clock : st.currentTime = 0
  same : st.rrProcesses = processes
  queue_lt : ∀ i ∈ st.readyQueue, i < processes.length
  waiting : i0 ∈ st.readyQueue

/-! ## `std::sort` of the GNU C++ library

`std::sort` is not part of the repository.  The definitions below follow the
implementation in the header `bits/stl_algo.h` of GNU libstdc++ (introsort:
median-of-three quicksort down to ranges of 16 elements, heapsort when the
depth limit is used up, then one insertion sort), with an iterator into the
vector as the index of its element. -/

/-- The call `std::iter_swap(a, b)`. -/
def iterSwap (v : List Process) (a b : Nat) : List Process :=
  (v.set a (procAt v b)).set b (procAt v a)

/-- The loop of `std::__lg(n)`, the position of the highest set bit. -/
def lgLoop : Nat → Nat → Nat
  | 0, _ => 0
  | fuel + 1, n => if 2 ≤ n then lgLoop fuel (n / 2) + 1 else 0

/-- The value `std::__lg(n)`. -/
def lg (n : Nat) : Nat :=
  lgLoop n n

/-- The function `std::__move_median_to_first(result, a, b, c, comp)`. -/
def moveMedianToFirst (comp : Process → Process → Bool) (v : List Process)
    (result a b c : Nat) : List Process :=
  if comp (procAt v a) (procAt v b) then
    if comp (procAt v b) (procAt v c) then iterSwap v result b
    else if comp (procAt v a) (procAt v c) then iterSwap v result c
    else iterSwap v result a
  else if comp (procAt v a) (procAt v c) then iterSwap v result a
  else if comp (procAt v b) (procAt v c) then iterSwap v result c
  else iterSwap v result b

/-- The loop `while (comp(first, pivot)) ++first;`. -/
def skipUp (comp : Process → Process → Bool) (v : List Process) (pivot : Nat) :
    Nat → Nat → Nat
  | 0, first => first
  | fuel + 1, first =>
    if comp (procAt v first) (procAt v pivot) then skipUp comp v pivot fuel (first + 1) else first

/-- The loop `while (comp(pivot, last)) --last;`. -/
def skipDown (comp : Process → Process → Bool) (v : List Process) (pivot : Nat) :
    Nat → Nat → Nat
  | 0, last => last
  | fuel + 1, last =>
    if comp (procAt v pivot) (procAt v last) then skipDown comp v pivot fuel (last - 1) else last

/-- The function `std::__unguarded_partition(first, last, pivot, comp)`: the
vector afterwards and the iterator returned. -/
def unguardedPartition (comp : Process → Process → Bool) (pivot : Nat) :
    Nat → List Process → Nat → Nat → List Process × Nat
  | 0, v, first, _ => (v, first)
  | fuel + 1, v, first, last =>
    let first := skipUp comp v pivot v.length first
    let last := last - 1
    let last := skipDown comp v pivot v.length last
    if first < last then
      unguardedPartition comp pivot fuel (iterSwap v first last) (first + 1) last
    else (v, first)

/-- The function `std::__unguarded_partition_pivot(first, last, comp)`. -/
def unguardedPartitionPivot (comp : Process → Process → Bool) (v : List Process)
    (first last : Nat) : List Process × Nat :=
  let mid := first + (last - first) / 2
  let v := moveMedianToFirst comp v first (first + 1) mid (last - 1)
  unguardedPartition comp first v.length v (first + 1) last

/-- The function `std::__push_heap(first, holeIndex, topIndex, value, comp)`. -/
def pushHeap (comp : Process → Process → Bool) (first topIndex : Nat) (value : Process) :
    Nat → List Process → Nat → List Process
  | 0, v, holeIndex => v.set (first + holeIndex) value
  | fuel + 1, v, holeIndex =>
    let parent := (holeIndex - 1) / 2
    if holeIndex > topIndex && comp (procAt v (first + parent)) value then
      pushHeap comp first topIndex value fuel
        (v.set (first + holeIndex) (procAt v (first + parent))) parent
    else v.set (first + holeIndex) value

/-- The first loop of `std::__adjust_heap`: the vector, `holeIndex` and
`secondChild` when it ends. -/
def adjustHeapLoop (comp : Process → Process → Bool) (first len : Nat) :
    Nat → List Process → Nat → Nat → List Process × Nat × Nat
  | 0, v, holeIndex, secondChild => (v, holeIndex, secondChild)
  | fuel + 1, v, holeIndex, secondChild =>
    if secondChild < (len - 1) / 2 then
      let secondChild := 2 * (secondChild + 1)
      let secondChild :=
        if comp (procAt v (first + secondChild)) (procAt v (first + (secondChild - 1)))
        then secondChild - 1 else secondChild
      adjustHeapLoop comp first len fuel
        (v.set (first + holeIndex) (procAt v (first + secondChild))) secondChild secondChild
    else (v, holeIndex, secondChild)

/-- The function `std::__adjust_heap(first, holeIndex, len, value, comp)`. -/
def adjustHeap (comp : Process → Process → Bool) (v : List Process) (first holeIndex len : Nat)
    (value : Process) : List Process :=
  let topIndex := holeIndex
  let r := adjustHeapLoop comp first len len v holeIndex holeIndex
  let v := r.1
  let holeIndex := r.2.1
  let secondChild := r.2.2
  if len % 2 = 0 ∧ secondChild = (len - 2) / 2 then
    let secondChild := 2 * (secondChild + 1)
    pushHeap comp first topIndex value len
      (v.set (first + holeIndex) (procAt v (first + (secondChild - 1)))) (secondChild - 1)
  else pushHeap comp first topIndex value len v holeIndex

/-- The loop of `std::__make_heap(first, last, comp)`, from `parent` down to 0. -/
def makeHeapLoop (comp : Process → Process → Bool) (first len : Nat) :
    Nat → List Process → List Process
  | 0, v => adjustHeap comp v first 0 len (procAt v first)
  | parent + 1, v =>
    makeHeapLoop comp first len parent
      (adjustHeap comp v first (parent + 1) len (procAt v (first + (parent + 1))))

/-- The function `std::__make_heap(first, last, comp)`. -/
def makeHeap (comp : Process → Process → Bool) (v : List Process) (first last : Nat) :
    List Process :=
  if last - first < 2 then v else makeHeapLoop comp first (last - first) ((last - first - 2) / 2) v

/-- The function `std::__pop_heap(first, last, result, comp)`. -/
def popHeap (comp : Process → Process → Bool) (v : List Process) (first last result : Nat) :
    List Process :=
  let value := procAt v result
  let v := v.set result (procAt v first)
  adjustHeap comp v first 0 (last - first) value

/-- The function `std::__sort_heap(first, last, comp)`. -/
def sortHeap (comp : Process → Process → Bool) (first : Nat) : Nat → List Process → Nat →
    List Process
  | 0, v, _ => v
  | fuel + 1, v, last =>
    if last - first > 1 then sortHeap comp first fuel (popHeap comp v first (last - 1) (last - 1))
      (last - 1)
    else v

/-- The call `std::__partial_sort(first, last, last, comp)` of the introsort
loop: `__heap_select`, whose loop over `[middle, last)` is empty here, then
`__sort_heap`. -/
def partialSort (comp : Process → Process → Bool) (v : List Process) (first last : Nat) :
    List Process :=
  sortHeap comp first (last - first) (makeHeap comp v first last) last

/-- The function `std::__introsort_loop(first, last, depth_limit, comp)`, with
the threshold `_S_threshold = 16`. -/
def introsortLoop (comp : Process → Process → Bool) : Nat → List Process → Nat → Nat →
    List Process
  | 0, v, first, last => if last - first > 16 then partialSort comp v first last else v
  | depthLimit + 1, v, first, last =>
    if last - first > 16 then
      let r := unguardedPartitionPivot comp v first last
      let v := introsortLoop comp depthLimit r.1 r.2 last
      introsortLoop comp depthLimit v first r.2
    else v

/-- The loop of `std::__unguarded_linear_insert(last, comp)`, on the elements in
front of `last` taken from right to left. -/
def linearInsertLoop (comp : Process → Process → Bool) (val : Process) :
    List Process → List Process
  | [] => [val]
  | next :: rest =>
    if comp val next then next :: linearInsertLoop comp val rest else val :: next :: rest

/-- The function `std::__unguarded_linear_insert(last, comp)`: the range
`[first, last]` afterwards, from the elements `sorted` of `[first, last)` and the
element `val` at `last`. -/
def unguardedLinearInsert (comp : Process → Process → Bool) (sorted : List Process)
    (val : Process) : List Process :=
  (linearInsertLoop comp val sorted.reverse).reverse

/-- One iteration of the loop of `std::__insertion_sort`: an element that
compares less than the first one is moved to the front (`move_backward`), any
other is inserted by `__unguarded_linear_insert`. -/
def insertionStep (comp : Process → Process → Bool) (sorted : List Process) (val : Process) :
    List Process :=
  match sorted with
  | [] => [val]
  | front :: _ => if comp val front then val :: sorted else unguardedLinearInsert comp sorted val

/-- The function `std::__insertion_sort(first, last, comp)` on the range as a
list. -/
def gnuInsertionSort (comp : Process → Process → Bool) (range : List Process) : List Process :=
  range.foldl (insertionStep comp) []

/-- The function `std::__final_insertion_sort(first, last, comp)` on the whole
vector: `__insertion_sort` on the first 16 elements, then
`__unguarded_insertion_sort` on the rest. -/
def finalInsertionSort (comp : Process → Process → Bool) (v : List Process) : List Process :=
  if v.length > 16 then
    (v.drop 16).foldl (unguardedLinearInsert comp) (gnuInsertionSort comp (v.take 16))
  else gnuInsertionSort comp v

/-- The call `std::sort(v.begin(), v.end(), comp)` with GNU libstdc++. -/
def gnuStdSort (comp : Process → Process → Bool) (v : List Process) : List Process :=
  if v.isEmpty then v
  else finalInsertionSort comp (introsortLoop comp (lg v.length * 2) v 0 v.length)

/-- The vector a reference or pointer points into. -/
inductive Vec where
  | member
  | copy
  deriving DecidableEq, Repr

/-- A `Process&` or `Process*`: the vector and the position of the element. -/
structure Ref where
  vec : Vec
  index : Nat
  deriving DecidableEq, Repr

/-- The vectors alive during a simulator call: the member `processes` of the
scheduler and the local vector of the call (`fcfsProcesses`, `rrProcesses` or
`priorityProcesses`). -/
structure Store where
  processes : List Process
  copy : List Process
  deriving DecidableEq, Repr

/-- Reading through a reference or pointer. -/
def Store.read (s : Store) (r : Ref) : Process :=
  match r.vec with
  | Vec.member => procAt s.processes r.index
  | Vec.copy => procAt s.copy r.index

/-- Writing through a reference or pointer. -/
def Store.write (s : Store) (r : Ref) (p : Process) : Store :=
  match r.vec with
  | Vec.member => { s with processes := s.processes.set r.index p }
  | Vec.copy => { s with copy := s.copy.set r.index p }

/-- The references a range-for `for (auto& process : v)` binds, in order, for
the vector `v` of the store. -/
def Store.refs (s : Store) (v : Vec) : List Ref :=
  match v with
  | Vec.member => (List.range s.processes.length).map (Ref.mk Vec.member)
  | Vec.copy => (List.range s.copy.length).map (Ref.mk Vec.copy)

/-- The store after `std::vector<Process> local = processes;` (lines 61, 100,
157): the copy constructor makes a second vector with equal elements. -/
def Store.afterCopy (self : ProcessScheduler) : Store :=
  { processes := self.processes, copy := self.processes }

/-- The frame of a call of `simulateFCFS` or `simulatePriorityScheduling`: the
two vectors and the locals that live across loop iterations. -/
structure ClockFrame where
  store : Store
  currentTime : Int
  totalWaitingTime : Int
  totalTurnaroundTime : Int
  deriving DecidableEq, Repr

/-- One iteration of `for (auto& process : fcfsProcesses)` (lines 66-87), with
`process` a reference: every access to a field goes through the reference. -/
def fcfsFrameVisit (f : ClockFrame) (process : Ref) : ClockFrame :=
  let currentTime :=
    if f.currentTime < (f.store.read process).arrivalTime then (f.store.read process).arrivalTime
    else f.currentTime
  let store := f.store.write process
    { f.store.read process with waitingTime := currentTime - (f.store.read process).arrivalTime }
  let totalWaitingTime := f.totalWaitingTime + (store.read process).waitingTime
  let currentTime := currentTime + (store.read process).burstTime
  let store := store.write process { store.read process with completionTime := currentTime }
  let turnaroundTime := (store.read process).completionTime - (store.read process).arrivalTime
  { store := store
    currentTime := currentTime
    totalWaitingTime := totalWaitingTime
    totalTurnaroundTime := f.totalTurnaroundTime + turnaroundTime }

/-- A call `scheduler.simulateFCFS()`: the frame when the loop has ended.  The
loop runs over references into the local `fcfsProcesses`. -/
def callFCFS (self : ProcessScheduler) : ClockFrame :=
  let store := Store.afterCopy self
  (store.refs Vec.copy).foldl fcfsFrameVisit
    { store := store, currentTime := 0, totalWaitingTime := 0, totalTurnaroundTime := 0 }

/-- One iteration of `for (auto& process : priorityProcesses)` (lines 167-187),
with `process` a reference. -/
def priorityFrameVisit (f : ClockFrame) (process : Ref) : ClockFrame :=
  let currentTime :=
    if f.currentTime < (f.store.read process).arrivalTime then (f.store.read process).arrivalTime
    else f.currentTime
  let store := f.store.write process
    { f.store.read process with waitingTime := currentTime - (f.store.read process).arrivalTime }
  let totalWaitingTime := f.totalWaitingTime + (store.read process).waitingTime
  let currentTime := currentTime + (store.read process).burstTime
  let store := store.write process { store.read process with completionTime := currentTime }
  let turnaroundTime := (store.read process).completionTime - (store.read process).arrivalTime
  { store := store
    currentTime := currentTime
    totalWaitingTime := totalWaitingTime
    totalTurnaroundTime := f.totalTurnaroundTime + turnaroundTime }

/-- A call `scheduler.simulatePriorityScheduling()`: `std::sort` is given the
iterators of the local `priorityProcesses` (lines 162-165) and rearranges that
vector; the loop runs over references into it. -/
def callPriorityScheduling (sort : List Process → List Process) (self : ProcessScheduler) :
    ClockFrame :=
  let store := Store.afterCopy self
  let store := { store with copy := sort store.copy }
  (store.refs Vec.copy).foldl priorityFrameVisit
    { store := store, currentTime := 0, totalWaitingTime := 0, totalTurnaroundTime := 0 }

/-- The frame of a call of `simulateRoundRobin`: the two vectors, the queue of
pointers and the locals the loop uses. -/
structure RRFrame where
  store : Store
  readyQueue : List Ref
  currentTime : Int
  processesCompleted : Nat
  deriving DecidableEq, Repr

/-- A scan `for (auto& process : rrProcesses) if (c(process)) readyQueue.push(&process)`:
the pointers pushed, all of them into the local `rrProcesses`. -/
def Store.scanCopy (s : Store) (c : Ref → Process → Bool) : List Ref :=
  (s.refs Vec.copy).filter (fun r => c r (s.read r))

/-- The frame on reaching the `while` of line 112. -/
def rrFrameInit (self : ProcessScheduler) : RRFrame :=
  let store := Store.afterCopy self
  { store := store
    readyQueue := store.scanCopy (fun _ process => process.arrivalTime == 0)
    currentTime := 0
    processesCompleted := 0 }

/-- The loop condition of line 112 on a frame. -/
def rrFrameCond (f : RRFrame) : Bool :=
  !f.readyQueue.isEmpty || decide (f.processesCompleted < f.store.copy.length)

/-- The ready queue after the admission scan of lines 113-117. -/
def rrFrameAdmission (f : RRFrame) : List Ref :=
  f.readyQueue ++ f.store.scanCopy (fun _ process => process.arrivalTime == f.currentTime)

/-- The branch of lines 119-147 on a frame, with `currentProcess` the pointer
popped from the queue: every access `currentProcess->...` goes through it. -/
def rrFrameSlice (timeQuantum : Int) (f : RRFrame) (currentProcess : Ref)
    (readyQueue : List Ref) : RRFrame :=
  let executionTime := min timeQuantum (f.store.read currentProcess).remainingTime
  let store := f.store.write currentProcess
    { f.store.read currentProcess with
      remainingTime := (f.store.read currentProcess).remainingTime - executionTime }
  let currentTime := f.currentTime + executionTime
  let readyQueue := readyQueue ++
    store.scanCopy (fun r process =>
      decide (process.arrivalTime ≤ currentTime) && decide (process.remainingTime > 0)
        && decide (r ≠ currentProcess))
  if (store.read currentProcess).remainingTime ≤ 0 then
    { store := store.write currentProcess
        { store.read currentProcess with completionTime := currentTime }
      readyQueue := readyQueue
      currentTime := currentTime
      processesCompleted := f.processesCompleted + 1 }
  else
    { store := store
      readyQueue := readyQueue ++ [currentProcess]
      currentTime := currentTime
      processesCompleted := f.processesCompleted }

/-- One iteration of the `while` body (lines 113-150) on a frame. -/
def rrFrameIter (timeQuantum : Int) (f : RRFrame) : RRFrame :=
  match rrFrameAdmission f with
  | [] => { f with readyQueue := [], currentTime := f.currentTime + 1 }
  | currentProcess :: readyQueue => rrFrameSlice timeQuantum f currentProcess readyQueue

/-- The `while` loop of lines 112-151 on a frame, for at most `fuel`
iterations. -/
def rrFrameLoop (timeQuantum : Int) : Nat → RRFrame → Option RRFrame
  | 0, f => if rrFrameCond f then none else some f
  | fuel + 1, f =>
    if rrFrameCond f then rrFrameLoop timeQuantum fuel (rrFrameIter timeQuantum f) else some f

/-- A call `scheduler.simulateRoundRobin(timeQuantum)`, bounded to `fuel` loop
iterations: the frame in which the loop exits. -/
def callRoundRobin (fuel : Nat) (timeQuantum : Int) (self : ProcessScheduler) : Option RRFrame :=
  rrFrameLoop timeQuantum fuel (rrFrameInit self)

/-- The local variables of a Round Robin frame as an `RRState`: the local
`rrProcesses` and each pointer of the queue as the index it points at. -/
def RRFrame.toState (f : RRFrame) : RRState :=
  { rrProcesses := f.store.copy
    readyQueue := f.readyQueue.map (fun r => r.index)
    currentTime := f.currentTime
    processesCompleted := f.processesCompleted }

/-- Every pointer in the queue points at an element of the local `rrProcesses`. -/
def RRFrame.Valid (f : RRFrame) : Prop :=
  ∀ r ∈ f.readyQueue, r.vec = Vec.copy ∧ r.index < f.store.copy.length

/-- The locals of a single-clock frame as an `FCFSState`. -/
def ClockFrame.toFCFS (f : ClockFrame) : FCFSState :=
  { fcfsProcesses := f.store.copy
    currentTime := f.currentTime
    totalWaitingTime := f.totalWaitingTime
    totalTurnaroundTime := f.totalTurnaroundTime }

/-- The locals of a single-clock frame as a `PriorityState`. -/
def ClockFrame.toPriority (f : ClockFrame) : PriorityState :=
  { priorityProcesses := f.store.copy
    currentTime := f.currentTime
    totalWaitingTime := f.totalWaitingTime
    totalTurnaroundTime := f.totalTurnaroundTime }

/-- An input that meets the data model, with values the generator can draw
(arrival in 0..10, burst in 1..20): the second process arrives at 10, long
after the first one has finished at 3. -/
def earlyExitInput : List Process :=
  [Process.new 1 0 3 1, Process.new 2 10 4 1]

/-- The three processes of the concrete scenario of the specification. -/
def scenario : List Process :=
  [Process.new 1 0 5 1, Process.new 2 1 3 1, Process.new 3 2 1 1]

/-! ## The single-clock loops -/

theorem fcfsVisit_eq (c : Int) (p : Process) :
    fcfsVisit c p = (max c p.arrivalTime + p.burstTime, specRecord c p) := by
  unfold fcfsVisit specRecord
  by_cases h : c < p.arrivalTime
  · simp [h, max_eq_right (le_of_lt h)]
  · simp [h, max_eq_left (not_lt.mp h)]

theorem priorityVisit_eq (c : Int) (p : Process) :
    priorityVisit c p = (max c p.arrivalTime + p.burstTime, specRecord c p) := by
  unfold priorityVisit specRecord
  by_cases h : c < p.arrivalTime
  · simp [h, max_eq_right (le_of_lt h)]
  · simp [h, max_eq_left (not_lt.mp h)]

theorem fcfsLoop_processes (st : FCFSState) (ps : List Process) :
    (fcfsLoop st ps).fcfsProcesses = st.fcfsProcesses ++ fcfsTrace st.currentTime ps := by
  induction ps generalizing st with
  | nil => simp [fcfsLoop, fcfsTrace]
  | cons p ps ih => simp [fcfsLoop, fcfsTrace, ih]

theorem fcfsLoop_currentTime (st : FCFSState) (ps : List Process) :
    (fcfsLoop st ps).currentTime = specClockFrom st.currentTime ps ps.length := by
  induction ps generalizing st with
  | nil => simp [fcfsLoop, specClockFrom]
  | cons p ps ih =>
    simp only [fcfsLoop, ih, specClockFrom, List.length_cons, List.take_succ_cons,
      List.foldl_cons, fcfsVisit_eq]

theorem priorityLoop_processes (st : PriorityState) (ps : List Process) :
    (priorityLoop st ps).priorityProcesses
      = st.priorityProcesses ++ priorityTrace st.currentTime ps := by
  induction ps generalizing st with
  | nil => simp [priorityLoop, priorityTrace]
  | cons p ps ih => simp [priorityLoop, priorityTrace, ih]

theorem fcfsTrace_length (c : Int) (ps : List Process) :
    (fcfsTrace c ps).length = ps.length := by
  induction ps generalizing c with
  | nil => rfl
  | cons p ps ih => simp [fcfsTrace, ih]

theorem fcfsTrace_getElem? (c : Int) (ps : List Process) (i : Nat) :
    (fcfsTrace c ps)[i]? = (ps[i]?).map (specRecord (specClockFrom c ps i)) := by
  induction ps generalizing c i with
  | nil => simp [fcfsTrace]
  | cons p ps ih =>
    cases i with
    | zero => simp [fcfsTrace, fcfsVisit_eq, specClockFrom]
    | succ i =>
      simp only [fcfsTrace, List.getElem?_cons_succ, ih, fcfsVisit_eq, specClockFrom,
        List.take_succ_cons, List.foldl_cons]

theorem priorityTrace_eq_fcfsTrace (c : Int) (ps : List Process) :
    priorityTrace c ps = fcfsTrace c ps := by
  induction ps generalizing c with
  | nil => rfl
  | cons p ps ih => simp [priorityTrace, fcfsTrace, ih, fcfsVisit_eq, priorityVisit_eq]

theorem mem_fcfsTrace {c : Int} {ps : List Process} {r : Process} (h : r ∈ fcfsTrace c ps) :
    ∃ c0 p, p ∈ ps ∧ r = specRecord c0 p := by
  induction ps generalizing c with
  | nil => simp [fcfsTrace] at h
  | cons p ps ih =>
    simp only [fcfsTrace, List.mem_cons] at h
    rcases h with h | h
    · exact ⟨c, p, by simp, by rw [h, fcfsVisit_eq]⟩
    · obtain ⟨c0, q, hq, hr⟩ := ih h
      exact ⟨c0, q, by simp [hq], hr⟩

theorem specClockFrom_succ (c : Int) (ps : List Process) (k : Nat) (p : Process)
    (hp : ps[k]? = some p) :
    specClockFrom c ps (k + 1) = max (specClockFrom c ps k) p.arrivalTime + p.burstTime := by
  induction ps generalizing c k with
  | nil => simp at hp
  | cons q ps ih =>
    cases k with
    | zero =>
      simp only [List.getElem?_cons_zero, Option.some.injEq] at hp
      subst hp
      simp [specClockFrom]
    | succ k =>
      simp only [List.getElem?_cons_succ] at hp
      have := ih (max c q.arrivalTime + q.burstTime) k hp
      simpa [specClockFrom] using this

/-- C1. `simulateFCFS` follows the single-clock recurrence on every input: it
returns one record per input process, in input order; the clock starts at 0;
the record at position `i` is the input process with
`waitingTime = start - arrivalTime` and `completionTime = start + burstTime`
for `start = max(c, arrivalTime)`, `c` the clock after the first `i` processes;
that clock is the `completionTime` given to process `i - 1`.  On
P1(0,5), P2(1,3), P3(2,1) the completion times are 5, 8, 9, the waiting times
0, 4, 6 and their sum 10. -/
theorem fcfs_follows_clock_recurrence :
    (∀ processes : List Process,
      (simulateFCFS processes).fcfsProcesses.length = processes.length ∧
      specClockFrom 0 processes 0 = 0 ∧
      (simulateFCFS processes).currentTime = specClockFrom 0 processes processes.length ∧
      ∀ (i : Nat) (p : Process), processes[i]? = some p →
        (simulateFCFS processes).fcfsProcesses[i]?
            = some { p with
                waitingTime := max (specClockFrom 0 processes i) p.arrivalTime - p.arrivalTime
                completionTime := max (specClockFrom 0 processes i) p.arrivalTime + p.burstTime } ∧
        specClockFrom 0 processes (i + 1)
            = max (specClockFrom 0 processes i) p.arrivalTime + p.burstTime) ∧
    (simulateFCFS scenario).fcfsProcesses.map (fun p => p.completionTime) = [5, 8, 9] ∧
    (simulateFCFS scenario).fcfsProcesses.map (fun p => p.waitingTime) = [0, 4, 6] ∧
    (simulateFCFS scenario).totalWaitingTime = 10 ∧
    (simulateFCFS scenario).fcfsProcesses.length = 3 := by
  refine ⟨fun processes => ⟨?_, ?_, ?_, ?_⟩, by decide, by decide, by decide, by decide⟩
  · simp [simulateFCFS, fcfsLoop_processes, fcfsTrace_length]
  · simp [specClockFrom]
  · simp [simulateFCFS, fcfsLoop_currentTime]
  · intro i p hp
    refine ⟨?_, specClockFrom_succ 0 processes i p hp⟩
    simp [simulateFCFS, fcfsLoop_processes, fcfsTrace_getElem?, hp, specRecord]

/-- C2. Conservation under FCFS and Priority: every record in the result of
`simulateFCFS`, and of `simulatePriorityScheduling` whatever the sort does,
has `completionTime - arrivalTime = waitingTime + burstTime`. -/
theorem conservation_fcfs_priority (sort : List Process → List Process)
    (processes : List Process) :
    (∀ p ∈ (simulateFCFS processes).fcfsProcesses,
      p.completionTime - p.arrivalTime = p.waitingTime + p.burstTime) ∧
    (∀ p ∈ (simulatePriorityScheduling sort processes).priorityProcesses,
      p.completionTime - p.arrivalTime = p.waitingTime + p.burstTime) := by
  constructor
  · intro p hp
    simp only [simulateFCFS, fcfsLoop_processes, List.nil_append] at hp
    obtain ⟨c0, q, -, rfl⟩ := mem_fcfsTrace hp
    simp only [specRecord]
    ring
  · intro p hp
    simp only [simulatePriorityScheduling, priorityLoop_processes, List.nil_append,
      priorityTrace_eq_fcfsTrace] at hp
    obtain ⟨c0, q, -, rfl⟩ := mem_fcfsTrace hp
    simp only [specRecord]
    ring

/-! ## The sort of the Priority simulator -/

theorem priorityLess_eq_false (a b : Process) :
    priorityLess b a = false ↔ a.priority ≤ b.priority := by
  simp [priorityLess]

theorem insertSorted_perm (comp : Process → Process → Bool) (x : Process) (l : List Process) :
    (insertSorted comp x l).Perm (x :: l) := by
  induction l with
  | nil => simp [insertSorted]
  | cons y ys ih =>
    unfold insertSorted
    split
    · exact List.Perm.refl _
    · exact (List.Perm.cons y ih).trans (List.Perm.swap x y ys)

theorem insertSorted_sorted (x : Process) (l : List Process)
    (h : l.Pairwise (fun a b => a.priority ≤ b.priority)) :
    (insertSorted priorityLess x l).Pairwise (fun a b => a.priority ≤ b.priority) := by
  induction l with
  | nil => simp [insertSorted]
  | cons y ys ih =>
    rw [List.pairwise_cons] at h
    unfold insertSorted
    by_cases hc : priorityLess x y = true
    · simp only [hc, if_true]
      have hxy : x.priority < y.priority := by simpa [priorityLess] using hc
      refine List.pairwise_cons.mpr ⟨?_, List.pairwise_cons.mpr h⟩
      intro z hz
      rcases List.mem_cons.mp hz with rfl | hz
      · exact le_of_lt hxy
      · exact le_trans (le_of_lt hxy) (h.1 z hz)
    · simp only [hc]
      have hxy : y.priority ≤ x.priority := by simpa [priorityLess] using hc
      refine List.pairwise_cons.mpr ⟨?_, ih h.2⟩
      intro z hz
      rcases List.mem_cons.mp ((insertSorted_perm priorityLess x ys).mem_iff.mp hz) with rfl | hz
      · exact hxy
      · exact h.1 z hz

theorem foldl_insert_spec (ins : Process → List Process → List Process)
    (hperm : ∀ x l, (ins x l).Perm (x :: l))
    (hsorted : ∀ x l, l.Pairwise (fun a b => a.priority ≤ b.priority) →
      (ins x l).Pairwise (fun a b => a.priority ≤ b.priority))
    (l acc : List Process) (hacc : acc.Pairwise (fun a b => a.priority ≤ b.priority)) :
    (l.foldl (fun acc x => ins x acc) acc).Perm (l ++ acc) ∧
    (l.foldl (fun acc x => ins x acc) acc).Pairwise (fun a b => a.priority ≤ b.priority) := by
  induction l generalizing acc with
  | nil => exact ⟨List.Perm.refl _, hacc⟩
  | cons x xs ih =>
    obtain ⟨h1, h2⟩ := ih (ins x acc) (hsorted x acc hacc)
    refine ⟨h1.trans ?_, h2⟩
    exact ((List.Perm.append_left xs (hperm x acc)).trans List.perm_middle)

theorem insertionSort_isStdSort : IsStdSort priorityLess (insertionSort priorityLess) := by
  constructor
  · intro l
    have := (foldl_insert_spec (insertSorted priorityLess) (insertSorted_perm priorityLess)
      insertSorted_sorted l [] List.Pairwise.nil).1
    simpa [insertionSort] using this
  · intro l
    have := (foldl_insert_spec (insertSorted priorityLess) (insertSorted_perm priorityLess)
      insertSorted_sorted l [] List.Pairwise.nil).2
    exact this.imp (fun h => (priorityLess_eq_false _ _).mpr h)

theorem fcfsTrace_map_priority (c : Int) (ps : List Process) :
    (fcfsTrace c ps).map (fun p => p.priority) = ps.map (fun p => p.priority) := by
  induction ps generalizing c with
  | nil => rfl
  | cons p ps ih => simp [fcfsTrace, ih, fcfsVisit_eq, specRecord]

theorem fcfsTrace_map_id (c : Int) (ps : List Process) :
    (fcfsTrace c ps).map (fun p => p.id) = ps.map (fun p => p.id) := by
  induction ps generalizing c with
  | nil => rfl
  | cons p ps ih => simp [fcfsTrace, ih, fcfsVisit_eq, specRecord]

theorem priority_result_eq (sort : List Process → List Process) (processes : List Process) :
    (simulatePriorityScheduling sort processes).priorityProcesses
      = fcfsTrace 0 (prioritySorted sort processes) := by
  simp [simulatePriorityScheduling, priorityLoop_processes, priorityTrace_eq_fcfsTrace]

/-- C5. The Priority simulator runs processes in ascending priority order: when
`sort` meets the contract of `std::sort` for the comparator of the code, the
sequence the loop iterates over is a permutation of the input with
non-decreasing priority values, and the records of the result stand in that same
order (same ids, same priorities, position by position). -/
theorem priority_runs_in_ascending_priority (sort : List Process → List Process)
    (hsort : IsStdSort priorityLess sort) (processes : List Process) :
    (prioritySorted sort processes).Perm processes ∧
    (prioritySorted sort processes).Pairwise (fun a b => a.priority ≤ b.priority) ∧
    (simulatePriorityScheduling sort processes).priorityProcesses.map (fun p => p.id)
      = (prioritySorted sort processes).map (fun p => p.id) ∧
    (simulatePriorityScheduling sort processes).priorityProcesses.map (fun p => p.priority)
      = (prioritySorted sort processes).map (fun p => p.priority) := by
  refine ⟨hsort.perm processes, ?_, ?_, ?_⟩
  · exact (hsort.sorted processes).imp (fun h => (priorityLess_eq_false _ _).mp h)
  · rw [priority_result_eq, fcfsTrace_map_id]
  · rw [priority_result_eq, fcfsTrace_map_priority]

/-- C5, at a concrete input: insertion sort meets the contract, and the three
processes with priorities 3, 1, 2 are run in the order 2, 3, 1. -/
theorem priority_runs_in_ascending_priority_witness :
    IsStdSort priorityLess (insertionSort priorityLess) ∧
    (simulatePriorityScheduling (insertionSort priorityLess)
        [Process.new 1 0 5 3, Process.new 2 1 3 1, Process.new 3 2 1 2]).priorityProcesses.map
        (fun p => p.id) = [2, 3, 1] ∧
    ((prioritySorted (insertionSort priorityLess)
        [Process.new 1 0 5 3, Process.new 2 1 3 1, Process.new 3 2 1 2]).Perm
        [Process.new 1 0 5 3, Process.new 2 1 3 1, Process.new 3 2 1 2] ∧
      (prioritySorted (insertionSort priorityLess)
        [Process.new 1 0 5 3, Process.new 2 1 3 1, Process.new 3 2 1 2]).Pairwise
        (fun a b => a.priority ≤ b.priority) ∧
      (simulatePriorityScheduling (insertionSort priorityLess)
          [Process.new 1 0 5 3, Process.new 2 1 3 1, Process.new 3 2 1 2]).priorityProcesses.map
          (fun p => p.id)
        = (prioritySorted (insertionSort priorityLess)
            [Process.new 1 0 5 3, Process.new 2 1 3 1, Process.new 3 2 1 2]).map (fun p => p.id) ∧
      (simulatePriorityScheduling (insertionSort priorityLess)
          [Process.new 1 0 5 3, Process.new 2 1 3 1, Process.new 3 2 1 2]).priorityProcesses.map
          (fun p => p.priority)
        = (prioritySorted (insertionSort priorityLess)
            [Process.new 1 0 5 3, Process.new 2 1 3 1, Process.new 3 2 1 2]).map
            (fun p => p.priority)) :=
  ⟨insertionSort_isStdSort, by decide,
    priority_runs_in_ascending_priority (insertionSort priorityLess) insertionSort_isStdSort
      [Process.new 1 0 5 3, Process.new 2 1 3 1, Process.new 3 2 1 2]⟩

/-- C7. Under FCFS and Priority no process waits a negative time or completes
early: every record in the result of `simulateFCFS`, and of
`simulatePriorityScheduling` whatever the sort does, has `waitingTime ≥ 0` and
`completionTime ≥ arrivalTime + burstTime`.  The bounds on `arrivalTime` and
`burstTime` of the data model are not needed. -/
theorem no_negative_wait_no_early_completion (sort : List Process → List Process)
    (processes : List Process) :
    (∀ p ∈ (simulateFCFS processes).fcfsProcesses,
      0 ≤ p.waitingTime ∧ p.arrivalTime + p.burstTime ≤ p.completionTime) ∧
    (∀ p ∈ (simulatePriorityScheduling sort processes).priorityProcesses,
      0 ≤ p.waitingTime ∧ p.arrivalTime + p.burstTime ≤ p.completionTime) := by
  constructor
  · intro p hp
    simp only [simulateFCFS, fcfsLoop_processes, List.nil_append] at hp
    obtain ⟨c0, q, -, rfl⟩ := mem_fcfsTrace hp
    simp only [specRecord]
    have := le_max_right c0 q.arrivalTime
    constructor <;> omega
  · intro p hp
    rw [priority_result_eq] at hp
    obtain ⟨c0, q, -, rfl⟩ := mem_fcfsTrace hp
    simp only [specRecord]
    have := le_max_right c0 q.arrivalTime
    constructor <;> omega

theorem specClockFrom_mono (c : Int) (ps : List Process) (hb : ∀ p ∈ ps, 1 ≤ p.burstTime)
    (k m : Nat) (hkm : k ≤ m) (hm : m ≤ ps.length) :
    specClockFrom c ps k ≤ specClockFrom c ps m := by
  induction m with
  | zero =>
    have : k = 0 := by omega
    subst this
    exact le_refl _
  | succ m ih =>
    rcases Nat.lt_or_ge k (m + 1) with hlt | hge
    · have h1 := ih (by omega) (by omega)
      have hm' : m < ps.length := by omega
      have h2 := specClockFrom_succ c ps m ps[m] (List.getElem?_eq_getElem hm')
      have h3 := hb ps[m] (List.getElem_mem hm')
      have h4 := le_max_left (specClockFrom c ps m) ps[m].arrivalTime
      omega
    · have : k = m + 1 := by omega
      subst this
      exact le_refl _

theorem fcfs_completion_eq (processes : List Process) (i : Nat) (r : Process)
    (hr : (simulateFCFS processes).fcfsProcesses[i]? = some r) :
    i < processes.length ∧ r.completionTime = specClockFrom 0 processes (i + 1) := by
  simp only [simulateFCFS, fcfsLoop_processes, List.nil_append, fcfsTrace_getElem?,
    Option.map_eq_some'] at hr
  obtain ⟨p, hp, rfl⟩ := hr
  obtain ⟨hi, -⟩ := List.getElem?_eq_some_iff.mp hp
  refine ⟨hi, ?_⟩
  rw [specClockFrom_succ 0 processes i p hp]
  simp [specRecord]

/-- C9. FCFS order preservation: when every process has `burstTime ≥ 1` and A
stands earlier in the input than B (positions `i < j`), the `completionTime`
that `simulateFCFS` gives A is at most (in fact less than) the one it gives B.
This holds whatever the arrival times are, so in particular when A arrives no
later than B. -/
theorem fcfs_order_preservation (processes : List Process)
    (hburst : ∀ p ∈ processes, 1 ≤ p.burstTime) (i j : Nat) (hij : i < j) (a b : Process)
    (ha : (simulateFCFS processes).fcfsProcesses[i]? = some a)
    (hb : (simulateFCFS processes).fcfsProcesses[j]? = some b) :
    a.completionTime ≤ b.completionTime ∧ a.completionTime < b.completionTime := by
  obtain ⟨-, hca⟩ := fcfs_completion_eq processes i a ha
  obtain ⟨hj, hcb⟩ := fcfs_completion_eq processes j b hb
  have h1 := specClockFrom_mono 0 processes hburst (i + 1) j (by omega) (by omega)
  have h2 := specClockFrom_succ 0 processes j processes[j] (List.getElem?_eq_getElem hj)
  have h3 := hburst processes[j] (List.getElem_mem hj)
  have h4 := le_max_left (specClockFrom 0 processes j) processes[j].arrivalTime
  constructor <;> omega

/-- C9 at the concrete scenario: P1 (position 0) completes at 5, P3 (position 2)
at 9. -/
theorem fcfs_order_preservation_witness :
    (∀ p ∈ scenario, 1 ≤ p.burstTime) ∧
    (simulateFCFS scenario).fcfsProcesses[0]? = some { Process.new 1 0 5 1 with completionTime := 5 } ∧
    (simulateFCFS scenario).fcfsProcesses[2]?
      = some { Process.new 3 2 1 1 with waitingTime := 6, completionTime := 9 } ∧
    ((5 : Int) ≤ 9 ∧ (5 : Int) < 9) :=
  ⟨by decide, by decide, by decide,
    fcfs_order_preservation scenario (by decide) 0 2 (by decide)
      { Process.new 1 0 5 1 with completionTime := 5 }
      { Process.new 3 2 1 1 with waitingTime := 6, completionTime := 9 }
      (by decide) (by decide)⟩

/-! ## Round Robin: the vector and the ready queue -/

theorem procAt_of_lt {l : List Process} {i : Nat} (h : i < l.length) : procAt l i = l[i] := by
  simp [procAt, h]

theorem procAt_mem {l : List Process} {i : Nat} (h : i < l.length) : procAt l i ∈ l := by
  rw [procAt_of_lt h]
  exact List.getElem_mem h

theorem procAt_set_self {l : List Process} {i : Nat} (x : Process) (h : i < l.length) :
    procAt (l.set i x) i = x := by
  simp [procAt, h]

theorem procAt_set_ne {l : List Process} {i j : Nat} (x : Process) (h : j ≠ i) :
    procAt (l.set i x) j = procAt l j := by
  simp [procAt, List.getElem?_set_ne (Ne.symm h)]

theorem mem_scan {l : List Process} {c : Nat → Process → Bool} {j : Nat} :
    j ∈ scan l c ↔ j < l.length ∧ c j (procAt l j) = true := by
  simp [scan]

theorem work_set (l : List Process) (i : Nat) (x : Process) (hi : i < l.length) :
    work (l.set i x) + (procAt l i).remainingTime.toNat = work l + x.remainingTime.toNat := by
  induction l generalizing i with
  | nil => simp at hi
  | cons a l ih =>
    cases i with
    | zero => simp [work, procAt]; omega
    | succ i =>
      have := ih i (by simpa using hi)
      simp only [work, procAt, List.set_cons_succ, List.map_cons, List.sum_cons,
        List.getD_cons_succ] at this ⊢
      omega

theorem countP_set_le (P : Process → Bool) (l : List Process) (i : Nat) (x : Process) :
    (l.set i x).countP P ≤ l.countP P + 1 := by
  induction l generalizing i with
  | nil => simp
  | cons a l ih =>
    cases i with
    | zero =>
      simp only [List.set_cons_zero, List.countP_cons]
      split <;> split <;> omega
    | succ i =>
      have := ih i
      simp only [List.set_cons_succ, List.countP_cons]
      omega

theorem countP_set_same (P : Process → Bool) (l : List Process) (i : Nat) (x : Process)
    (h : P x = P (procAt l i)) : (l.set i x).countP P = l.countP P := by
  induction l generalizing i with
  | nil => simp
  | cons a l ih =>
    cases i with
    | zero =>
      simp only [procAt, List.getD_cons_zero] at h
      simp [List.countP_cons, h]
    | succ i =>
      have := ih i (by simpa [procAt] using h)
      simp only [List.set_cons_succ, List.countP_cons]
      omega

theorem map_set_same {β : Type} (f : Process → β) (l : List Process) (i : Nat) (x : Process)
    (h : f x = f (procAt l i)) : (l.set i x).map f = l.map f := by
  induction l generalizing i with
  | nil => simp
  | cons a l ih =>
    cases i with
    | zero =>
      simp only [procAt, List.getD_cons_zero] at h
      simp [h]
    | succ i =>
      have := ih i (by simpa [procAt] using h)
      simp [this]

theorem exists_live_of_countP_lt (l : List Process)
    (h : l.countP (fun p => decide (p.remainingTime ≤ 0)) < l.length) :
    ∃ i, i < l.length ∧ 0 < (procAt l i).remainingTime := by
  by_contra hcon
  push_neg at hcon
  have : l.countP (fun p => decide (p.remainingTime ≤ 0)) = l.length := by
    rw [List.countP_eq_length]
    intro a ha
    obtain ⟨i, hi, rfl⟩ := List.mem_iff_getElem.mp ha
    have := hcon i hi
    rw [procAt_of_lt hi] at this
    simpa using this
  omega

theorem le_lastArrival (l : List Process) (i : Nat) (hi : i < l.length) :
    (procAt l i).arrivalTime ≤ lastArrival l := by
  induction l generalizing i with
  | nil => simp at hi
  | cons a l ih =>
    cases i with
    | zero => simp [lastArrival, procAt]
    | succ i =>
      have := ih i (by simpa using hi)
      simp only [lastArrival, procAt, List.getD_cons_succ, List.map_cons, List.foldr_cons] at this ⊢
      exact le_trans this (le_max_right _ _)

/-! ## One slice of Round Robin -/

theorem rrIter_idle (q : Int) (st : RRState) (h : admission st = []) :
    rrIter q st = { st with readyQueue := [], currentTime := st.currentTime + 1 } := by
  simp [rrIter, h]

theorem rrIter_run (q : Int) (st : RRState) (cur : Nat) (rest : List Nat)
    (h : admission st = cur :: rest) : rrIter q st = runSlice q st cur rest := by
  simp [rrIter, h]

theorem runSlice_currentTime (q : Int) (st : RRState) (cur : Nat) (rest : List Nat) :
    (runSlice q st cur rest).currentTime
      = st.currentTime + min q (procAt st.rrProcesses cur).remainingTime := by
  unfold runSlice
  simp only
  split <;> rfl

theorem runSlice_length (q : Int) (st : RRState) (cur : Nat) (rest : List Nat) :
    (runSlice q st cur rest).rrProcesses.length = st.rrProcesses.length := by
  unfold runSlice
  simp only
  split <;> simp

theorem runSlice_completed (q : Int) (st : RRState) (cur : Nat) (rest : List Nat) :
    (runSlice q st cur rest).processesCompleted
      = st.processesCompleted +
        (if (procAt st.rrProcesses cur).remainingTime
            - min q (procAt st.rrProcesses cur).remainingTime ≤ 0 then 1 else 0) := by
  unfold runSlice
  simp only
  split <;> simp

theorem runSlice_procAt_ne (q : Int) (st : RRState) (cur : Nat) (rest : List Nat) (j : Nat)
    (hj : j ≠ cur) :
    procAt (runSlice q st cur rest).rrProcesses j = procAt st.rrProcesses j := by
  unfold runSlice
  simp only
  split <;> simp [procAt_set_ne _ hj]

theorem runSlice_procAt_cur (q : Int) (st : RRState) (cur : Nat) (rest : List Nat)
    (hcur : cur < st.rrProcesses.length) :
    procAt (runSlice q st cur rest).rrProcesses cur
      = { procAt st.rrProcesses cur with
          remainingTime := (procAt st.rrProcesses cur).remainingTime
            - min q (procAt st.rrProcesses cur).remainingTime
          completionTime :=
            if (procAt st.rrProcesses cur).remainingTime
                - min q (procAt st.rrProcesses cur).remainingTime ≤ 0
            then st.currentTime + min q (procAt st.rrProcesses cur).remainingTime
            else (procAt st.rrProcesses cur).completionTime } := by
  unfold runSlice
  simp only
  split
  · rw [procAt_set_self _ (by simpa using hcur)]
  · rw [procAt_set_self _ hcur]

theorem runSlice_arrival (q : Int) (st : RRState) (cur : Nat) (rest : List Nat)
    (hcur : cur < st.rrProcesses.length) (j : Nat) :
    (procAt (runSlice q st cur rest).rrProcesses j).arrivalTime
      = (procAt st.rrProcesses j).arrivalTime := by
  by_cases hj : j = cur
  · subst hj; rw [runSlice_procAt_cur q st j rest hcur]
  · rw [runSlice_procAt_ne q st cur rest j hj]

theorem runSlice_remaining (q : Int) (st : RRState) (cur : Nat) (rest : List Nat)
    (hcur : cur < st.rrProcesses.length) (j : Nat) :
    (procAt (runSlice q st cur rest).rrProcesses j).remainingTime
      = if j = cur then (procAt st.rrProcesses cur).remainingTime
          - min q (procAt st.rrProcesses cur).remainingTime
        else (procAt st.rrProcesses j).remainingTime := by
  by_cases hj : j = cur
  · subst hj; rw [runSlice_procAt_cur q st j rest hcur]; simp
  · rw [runSlice_procAt_ne q st cur rest j hj]; simp [hj]

theorem runSlice_mem_queue (q : Int) (st : RRState) (cur : Nat) (rest : List Nat) (j : Nat) :
    j ∈ (runSlice q st cur rest).readyQueue ↔
      j ∈ rest ∨
      (j < st.rrProcesses.length ∧ j ≠ cur ∧
        (procAt st.rrProcesses j).arrivalTime
          ≤ st.currentTime + min q (procAt st.rrProcesses cur).remainingTime ∧
        0 < (procAt st.rrProcesses j).remainingTime) ∨
      (j = cur ∧ 0 < (procAt st.rrProcesses cur).remainingTime
          - min q (procAt st.rrProcesses cur).remainingTime) := by
  unfold runSlice
  simp only
  split
  · rename_i h
    simp only [List.mem_append, mem_scan, List.length_set, Bool.and_eq_true, decide_eq_true_eq]
    constructor
    · rintro (h1 | ⟨h1, ⟨h2, h3⟩, h4⟩)
      · exact Or.inl h1
      · rw [procAt_set_ne _ h4] at h2 h3
        exact Or.inr (Or.inl ⟨h1, h4, h2, h3⟩)
    · rintro (h1 | ⟨h1, h4, h2, h3⟩ | ⟨-, h5⟩)
      · exact Or.inl h1
      · refine Or.inr ⟨h1, ⟨?_, ?_⟩, h4⟩
        · rw [procAt_set_ne _ h4]; exact h2
        · rw [procAt_set_ne _ h4]; exact h3
      · omega
  · rename_i h
    simp only [List.mem_append, mem_scan, List.length_set, Bool.and_eq_true, decide_eq_true_eq,
      List.mem_singleton]
    constructor
    · rintro ((h1 | ⟨h1, ⟨h2, h3⟩, h4⟩) | h5)
      · exact Or.inl h1
      · rw [procAt_set_ne _ h4] at h2 h3
        exact Or.inr (Or.inl ⟨h1, h4, h2, h3⟩)
      · refine Or.inr (Or.inr ⟨h5, ?_⟩)
        omega
    · rintro (h1 | ⟨h1, h4, h2, h3⟩ | ⟨h5, -⟩)
      · exact Or.inl (Or.inl h1)
      · refine Or.inl (Or.inr ⟨h1, ⟨?_, ?_⟩, h4⟩)
        · rw [procAt_set_ne _ h4]; exact h2
        · rw [procAt_set_ne _ h4]; exact h3
      · exact Or.inr h5

theorem runSlice_rrProcesses (q : Int) (st : RRState) (cur : Nat) (rest : List Nat) :
    (runSlice q st cur rest).rrProcesses
      = st.rrProcesses.set cur (procAt (runSlice q st cur rest).rrProcesses cur) := by
  by_cases hcur : cur < st.rrProcesses.length
  · rw [runSlice_procAt_cur q st cur rest hcur]
    unfold runSlice
    simp only
    split
    · rw [List.set_set]
    · rfl
  · have h1 : ∀ x, st.rrProcesses.set cur x = st.rrProcesses := by
      intro x
      exact List.set_eq_of_length_le (by omega)
    unfold runSlice
    simp only
    split <;> simp [h1]

theorem runSlice_queue_done (q : Int) (st : RRState) (cur : Nat) (rest : List Nat)
    (h : (procAt st.rrProcesses cur).remainingTime
      - min q (procAt st.rrProcesses cur).remainingTime ≤ 0) :
    ∃ extra, (runSlice q st cur rest).readyQueue = rest ++ extra ∧
      ∀ j ∈ extra, j ≠ cur ∧ 0 < (procAt st.rrProcesses j).remainingTime := by
  unfold runSlice
  simp only [h, if_true]
  refine ⟨_, rfl, ?_⟩
  intro j hj
  simp only [mem_scan, Bool.and_eq_true, decide_eq_true_eq] at hj
  obtain ⟨-, ⟨-, h3⟩, h4⟩ := hj
  rw [procAt_set_ne _ h4] at h3
  exact ⟨h4, h3⟩

/-! ## The loop invariant -/

theorem admission_valid {st : RRState} (hinv : RRInv st) (i : Nat) (hi : i ∈ admission st) :
    i < st.rrProcesses.length ∧ (procAt st.rrProcesses i).arrivalTime ≤ st.currentTime := by
  simp only [admission, List.mem_append, mem_scan, beq_iff_eq] at hi
  rcases hi with hi | ⟨h1, h2⟩
  · exact hinv.queue_valid i hi
  · exact ⟨h1, le_of_eq h2⟩

theorem admission_ready {st : RRState} (hinv : RRInv st) (i : Nat) (hi : i < st.rrProcesses.length)
    (hrem : 0 < (procAt st.rrProcesses i).remainingTime)
    (harr : (procAt st.rrProcesses i).arrivalTime ≤ st.currentTime) : i ∈ admission st := by
  simp only [admission, List.mem_append, mem_scan, beq_iff_eq]
  rcases lt_or_eq_of_le harr with h | h
  · exact Or.inl (hinv.ready i hi hrem h)
  · exact Or.inr ⟨hi, h⟩

theorem admission_stale {st : RRState} (hinv : RRInv st) :
    (admission st).countP (fun i => decide ((procAt st.rrProcesses i).remainingTime ≤ 0))
      = staleEntries st := by
  simp only [admission, List.countP_append, staleEntries]
  have : (scan st.rrProcesses (fun _ process => process.arrivalTime == st.currentTime)).countP
      (fun i => decide ((procAt st.rrProcesses i).remainingTime ≤ 0)) = 0 := by
    rw [List.countP_eq_zero]
    intro j hj
    simp only [mem_scan, beq_iff_eq] at hj
    simp only [decide_eq_true_eq]
    intro hle
    have := hinv.started j hj.1 hle
    omega
  omega

theorem rrInit_inv (processes : List Process) (hdata : DataModel processes) :
    RRInv (rrInit processes) := by
  have hrem : ∀ i, i < processes.length → 1 ≤ (procAt processes i).remainingTime := by
    intro i hi
    obtain ⟨⟨h1, -, -⟩, -, h3⟩ := hdata _ (procAt_mem hi)
    omega
  constructor
  · intro i hi
    simp only [rrInit, mem_scan, beq_iff_eq] at hi
    exact ⟨hi.1, le_of_eq hi.2⟩
  · intro i hi
    have := hrem i hi
    simp only [rrInit]
    omega
  · intro i hi hle
    have := hrem i hi
    simp only [rrInit] at hle
    omega
  · simp only [rrInit]
    have : processes.countP (fun p => decide (p.remainingTime ≤ 0)) = 0 := by
      rw [List.countP_eq_zero]
      intro p hp
      obtain ⟨⟨h1, -, -⟩, -, h3⟩ := hdata p hp
      simp only [decide_eq_true_eq]
      omega
    omega
  · intro i hi _ harr
    obtain ⟨-, h2, -⟩ := hdata _ (procAt_mem hi)
    simp only [rrInit] at harr
    omega

theorem rrIter_idle_inv {st : RRState} (hinv : RRInv st) (h : admission st = []) :
    RRInv { st with readyQueue := [], currentTime := st.currentTime + 1 } := by
  constructor
  · intro i hi
    simp at hi
  · exact hinv.rem_nonneg
  · intro i hi hle
    have := hinv.started i hi hle
    simp only
    omega
  · exact hinv.counted
  · intro i hi hrem harr
    simp only at harr
    have := admission_ready hinv i hi hrem (by omega)
    rw [h] at this
    simp at this

theorem runSlice_inv {q : Int} (hq : 1 ≤ q) {st : RRState} (hinv : RRInv st) (cur : Nat)
    (rest : List Nat) (h : admission st = cur :: rest) : RRInv (runSlice q st cur rest) := by
  have hcurmem : cur ∈ admission st := by rw [h]; simp
  obtain ⟨hcur, hcurarr⟩ := admission_valid hinv cur hcurmem
  have hrem0 := hinv.rem_nonneg cur hcur
  have he0 : 0 ≤ min q (procAt st.rrProcesses cur).remainingTime := le_min (by omega) hrem0
  have hele : min q (procAt st.rrProcesses cur).remainingTime
      ≤ (procAt st.rrProcesses cur).remainingTime := min_le_right _ _
  have hepos : 0 < (procAt st.rrProcesses cur).remainingTime →
      1 ≤ min q (procAt st.rrProcesses cur).remainingTime := fun hp => le_min hq (by omega)
  constructor
  · intro i hi
    rw [runSlice_length, runSlice_arrival q st cur rest hcur, runSlice_currentTime]
    rw [runSlice_mem_queue] at hi
    rcases hi with hi | ⟨h1, -, h3, -⟩ | ⟨h5, -⟩
    · have := admission_valid hinv i (by rw [h]; exact List.mem_cons_of_mem _ hi)
      exact ⟨this.1, by omega⟩
    · exact ⟨h1, h3⟩
    · subst h5
      exact ⟨hcur, by omega⟩
  · intro i hi
    rw [runSlice_length] at hi
    rw [runSlice_remaining q st cur rest hcur]
    split
    · omega
    · exact hinv.rem_nonneg i hi
  · intro i hi hle
    rw [runSlice_length] at hi
    rw [runSlice_remaining q st cur rest hcur] at hle
    rw [runSlice_arrival q st cur rest hcur, runSlice_currentTime]
    by_cases hic : i = cur
    · subst hic
      simp only [if_true] at hle
      rcases lt_or_eq_of_le hrem0 with hp | hz
      · have := hepos hp
        omega
      · have := hinv.started i hi (by omega)
        omega
    · simp only [hic, if_false] at hle
      have := hinv.started i hi hle
      omega
  · rw [runSlice_completed, runSlice_rrProcesses]
    split
    · have := countP_set_le (fun p => decide (p.remainingTime ≤ 0)) st.rrProcesses cur
        (procAt (runSlice q st cur rest).rrProcesses cur)
      have := hinv.counted
      omega
    · rename_i hgt
      have hsame := countP_set_same (fun p => decide (p.remainingTime ≤ 0)) st.rrProcesses cur
        (procAt (runSlice q st cur rest).rrProcesses cur) (by
          show decide (_ ≤ 0) = decide (_ ≤ 0)
          rw [runSlice_remaining q st cur rest hcur]
          simp only [if_true, decide_eq_decide]
          constructor <;> intro <;> omega)
      have := hinv.counted
      omega
  · intro i hi hrem harr
    rw [runSlice_length] at hi
    rw [runSlice_remaining q st cur rest hcur] at hrem
    rw [runSlice_arrival q st cur rest hcur, runSlice_currentTime] at harr
    rw [runSlice_mem_queue]
    by_cases hic : i = cur
    · subst hic
      simp only [if_true] at hrem
      exact Or.inr (Or.inr ⟨rfl, hrem⟩)
    · simp only [hic, if_false] at hrem
      exact Or.inr (Or.inl ⟨hi, hic, le_of_lt harr, hrem⟩)

theorem rrIter_inv {q : Int} (hq : 1 ≤ q) {st : RRState} (hinv : RRInv st) :
    RRInv (rrIter q st) := by
  cases h : admission st with
  | nil => rw [rrIter_idle q st h]; exact rrIter_idle_inv hinv h
  | cons cur rest => rw [rrIter_run q st cur rest h]; exact runSlice_inv hq hinv cur rest h

/-! ## Termination of the Round Robin loop -/

theorem idle_measure {st : RRState} (hinv : RRInv st) (hc : rrCond st = true)
    (h : admission st = []) :
    st.readyQueue = [] ∧ st.currentTime < lastArrival st.rrProcesses := by
  have hq : st.readyQueue = [] := by
    simp only [admission, List.append_eq_nil] at h
    exact h.1
  refine ⟨hq, ?_⟩
  have hlt : st.processesCompleted < st.rrProcesses.length := by
    simpa [rrCond, hq] using hc
  obtain ⟨i, hi, hrem⟩ := exists_live_of_countP_lt st.rrProcesses
    (lt_of_le_of_lt hinv.counted hlt)
  have harr : st.currentTime < (procAt st.rrProcesses i).arrivalTime := by
    by_contra hcon
    have := admission_ready hinv i hi hrem (by omega)
    rw [h] at this
    simp at this
  exact lt_of_lt_of_le harr (le_lastArrival st.rrProcesses i hi)

theorem runSlice_measure {q : Int} (hq : 1 ≤ q) {st : RRState} (hinv : RRInv st) (cur : Nat)
    (rest : List Nat) (h : admission st = cur :: rest) :
    work (runSlice q st cur rest).rrProcesses < work st.rrProcesses ∨
    (work (runSlice q st cur rest).rrProcesses = work st.rrProcesses ∧
      staleEntries (runSlice q st cur rest) < staleEntries st) := by
  have hcurmem : cur ∈ admission st := by rw [h]; simp
  obtain ⟨hcur, -⟩ := admission_valid hinv cur hcurmem
  have hrem0 := hinv.rem_nonneg cur hcur
  have hw := work_set st.rrProcesses cur (procAt (runSlice q st cur rest).rrProcesses cur) hcur
  rw [← runSlice_rrProcesses, runSlice_remaining q st cur rest hcur] at hw
  simp only [if_true] at hw
  rcases lt_or_eq_of_le hrem0 with hp | hz
  · left
    have h1 : 1 ≤ min q (procAt st.rrProcesses cur).remainingTime := le_min hq (by omega)
    have h2 : min q (procAt st.rrProcesses cur).remainingTime
        ≤ (procAt st.rrProcesses cur).remainingTime := min_le_right _ _
    omega
  · right
    have he : min q (procAt st.rrProcesses cur).remainingTime = 0 := by
      rw [← hz]; exact min_eq_right (by omega)
    rw [he] at hw
    refine ⟨by omega, ?_⟩
    obtain ⟨extra, hqe, hextra⟩ := runSlice_queue_done q st cur rest (by rw [he]; omega)
    have hsame : ∀ j, (procAt (runSlice q st cur rest).rrProcesses j).remainingTime
        = (procAt st.rrProcesses j).remainingTime := by
      intro j
      rw [runSlice_remaining q st cur rest hcur, he]
      split
      · rename_i hj; subst hj; omega
      · rfl
    have hs1 : staleEntries (runSlice q st cur rest)
        = rest.countP (fun i => decide ((procAt st.rrProcesses i).remainingTime ≤ 0)) := by
      simp only [staleEntries, hqe, hsame, List.countP_append]
      have : extra.countP (fun i => decide ((procAt st.rrProcesses i).remainingTime ≤ 0)) = 0 := by
        rw [List.countP_eq_zero]
        intro j hj
        have := (hextra j hj).2
        simp only [decide_eq_true_eq]
        omega
      omega
    have hs2 := admission_stale hinv
    rw [h, List.countP_cons] at hs2
    have hcs : decide ((procAt st.rrProcesses cur).remainingTime ≤ 0) = true := by
      simp only [decide_eq_true_eq]; omega
    simp only [hcs, if_true] at hs2
    omega

theorem rrIter_measure {q : Int} (hq : 1 ≤ q) {st : RRState} (hinv : RRInv st)
    (hc : rrCond st = true) :
    work (rrIter q st).rrProcesses < work st.rrProcesses ∨
    (work (rrIter q st).rrProcesses = work st.rrProcesses ∧
      staleEntries (rrIter q st) < staleEntries st) ∨
    (work (rrIter q st).rrProcesses = work st.rrProcesses ∧
      staleEntries (rrIter q st) = staleEntries st ∧
      idleBudget (rrIter q st) < idleBudget st) := by
  cases h : admission st with
  | nil =>
    obtain ⟨hq0, hlt⟩ := idle_measure hinv hc h
    rw [rrIter_idle q st h]
    right; right
    refine ⟨rfl, ?_, ?_⟩
    · simp [staleEntries, hq0]
    · simp only [idleBudget]
      omega
  | cons cur rest =>
    rw [rrIter_run q st cur rest h]
    rcases runSlice_measure hq hinv cur rest h with h1 | h1
    · exact Or.inl h1
    · exact Or.inr (Or.inl h1)

theorem rrLoop_exit (q : Int) (fuel : Nat) (st : RRState) (hc : rrCond st = false) :
    rrLoop q fuel st = some st := by
  cases fuel <;> simp [rrLoop, hc]

theorem rrLoop_continue (q : Int) (fuel : Nat) (st : RRState) (hc : rrCond st = true) :
    rrLoop q (fuel + 1) st = rrLoop q fuel (rrIter q st) := by
  simp [rrLoop, hc]

theorem rrLoop_mono (q : Int) (fuel : Nat) (st r : RRState) (h : rrLoop q fuel st = some r)
    (k : Nat) : rrLoop q (fuel + k) st = some r := by
  induction fuel generalizing st with
  | zero =>
    by_cases hc : rrCond st = true
    · simp [rrLoop, hc] at h
    · have hc : rrCond st = false := by simpa using hc
      rw [rrLoop_exit q 0 st hc] at h
      rw [rrLoop_exit q _ st hc, h]
  | succ fuel ih =>
    by_cases hc : rrCond st = true
    · rw [rrLoop_continue q fuel st hc] at h
      have : fuel + 1 + k = (fuel + k) + 1 := by omega
      rw [this, rrLoop_continue q _ st hc]
      exact ih _ h
    · have hc : rrCond st = false := by simpa using hc
      rw [rrLoop_exit q _ st hc] at h
      rw [rrLoop_exit q _ st hc, h]

theorem rrLoop_result_exits (q : Int) (fuel : Nat) (st r : RRState)
    (h : rrLoop q fuel st = some r) : rrCond r = false := by
  induction fuel generalizing st with
  | zero =>
    by_cases hc : rrCond st = true
    · simp [rrLoop, hc] at h
    · have hc : rrCond st = false := by simpa using hc
      rw [rrLoop_exit q 0 st hc] at h
      cases h
      exact hc
  | succ fuel ih =>
    by_cases hc : rrCond st = true
    · rw [rrLoop_continue q fuel st hc] at h
      exact ih _ h
    · have hc : rrCond st = false := by simpa using hc
      rw [rrLoop_exit q _ st hc] at h
      cases h
      exact hc

theorem rrLoop_terminates_of_inv {q : Int} (hq : 1 ≤ q) :
    ∀ (w s d : Nat) (st : RRState), RRInv st → work st.rrProcesses = w → staleEntries st = s →
      idleBudget st = d → ∃ fuel r, rrLoop q fuel st = some r := by
  intro w
  induction w using Nat.strong_induction_on with
  | _ w ihw =>
    intro s
    induction s using Nat.strong_induction_on with
    | _ s ihs =>
      intro d
      induction d using Nat.strong_induction_on with
      | _ d ihd =>
        intro st hinv hw hs hd
        by_cases hc : rrCond st = true
        · have hinv' := rrIter_inv hq hinv
          have step : (∃ fuel r, rrLoop q fuel (rrIter q st) = some r) := by
            rcases rrIter_measure hq hinv hc with h1 | ⟨h1, h2⟩ | ⟨h1, h2, h3⟩
            · exact ihw _ (by omega) _ _ _ hinv' rfl rfl rfl
            · exact ihs _ (by omega) _ _ hinv' (by omega) rfl rfl
            · exact ihd _ (by omega) _ hinv' (by omega) (by omega) rfl
          obtain ⟨fuel, r, hr⟩ := step
          exact ⟨fuel + 1, r, by rw [rrLoop_continue q fuel st hc]; exact hr⟩
        · have hc : rrCond st = false := by simpa using hc
          exact ⟨0, st, rrLoop_exit q 0 st hc⟩

/-! ## Round Robin: what holds at exit -/

theorem rrInit_timing (processes : List Process) (hdata : DataModel processes) :
    RRTiming (rrInit processes) := by
  constructor
  · intro i hi
    obtain ⟨⟨h1, -, -⟩, -, -⟩ := hdata _ (procAt_mem hi)
    exact Or.inl h1
  · intro i hi hle
    obtain ⟨⟨h1, -, -⟩, -, h3⟩ := hdata _ (procAt_mem hi)
    simp only [rrInit] at hle
    omega

theorem runSlice_timing {q : Int} (hq : 1 ≤ q) {st : RRState} (hinv : RRInv st)
    (ht : RRTiming st) (cur : Nat) (rest : List Nat) (h : admission st = cur :: rest) :
    RRTiming (runSlice q st cur rest) := by
  have hcurmem : cur ∈ admission st := by rw [h]; simp
  obtain ⟨hcur, hcurarr⟩ := admission_valid hinv cur hcurmem
  have hrem0 := hinv.rem_nonneg cur hcur
  have he0 : 0 ≤ min q (procAt st.rrProcesses cur).remainingTime := le_min (by omega) hrem0
  have hele : min q (procAt st.rrProcesses cur).remainingTime
      ≤ (procAt st.rrProcesses cur).remainingTime := min_le_right _ _
  have hpc := ht.progress cur hcur
  constructor
  · intro i hi
    rw [runSlice_length] at hi
    rw [runSlice_currentTime]
    by_cases hic : i = cur
    · subst hic
      rw [runSlice_procAt_cur q st i rest hcur]
      simp only
      right
      rcases hpc with hp | hp <;> omega
    · rw [runSlice_procAt_ne q st cur rest i hic]
      rcases ht.progress i hi with hp | hp
      · exact Or.inl hp
      · exact Or.inr (by omega)
  · intro i hi hle
    rw [runSlice_length] at hi
    by_cases hic : i = cur
    · subst hic
      rw [runSlice_procAt_cur q st i rest hcur] at hle ⊢
      simp only at hle ⊢
      rw [if_pos hle]
      rcases hpc with hp | hp <;> omega
    · rw [runSlice_procAt_ne q st cur rest i hic] at hle ⊢
      exact ht.finished i hi hle

theorem rrIter_timing {q : Int} (hq : 1 ≤ q) {st : RRState} (hinv : RRInv st)
    (ht : RRTiming st) : RRTiming (rrIter q st) := by
  cases h : admission st with
  | nil =>
    rw [rrIter_idle q st h]
    constructor
    · intro i hi
      rcases ht.progress i hi with hp | hp
      · exact Or.inl hp
      · right
        simp only
        omega
    · exact ht.finished
  | cons cur rest => rw [rrIter_run q st cur rest h]; exact runSlice_timing hq hinv ht cur rest h

theorem rrLoop_inv {q : Int} (hq : 1 ≤ q) (fuel : Nat) (st r : RRState)
    (hinv : RRInv st) (ht : RRTiming st) (h : rrLoop q fuel st = some r) :
    RRInv r ∧ RRTiming r := by
  induction fuel generalizing st with
  | zero =>
    by_cases hc : rrCond st = true
    · simp [rrLoop, hc] at h
    · have hc : rrCond st = false := by simpa using hc
      rw [rrLoop_exit q 0 st hc] at h
      cases h
      exact ⟨hinv, ht⟩
  | succ fuel ih =>
    by_cases hc : rrCond st = true
    · rw [rrLoop_continue q fuel st hc] at h
      exact ih _ (rrIter_inv hq hinv) (rrIter_timing hq hinv ht) h
    · have hc : rrCond st = false := by simpa using hc
      rw [rrLoop_exit q _ st hc] at h
      cases h
      exact ⟨hinv, ht⟩

/-- What does hold when the Round Robin loop exits, for every process set that
meets the data model and every `timeQuantum ≥ 1`: the ready queue is empty, the
counter has reached the number of processes, no `remainingTime` is negative,
every process that arrived before the final clock value has `remainingTime = 0`,
and every process with `remainingTime = 0` has
`completionTime ≥ arrivalTime + burstTime`. -/
theorem round_robin_exit_state (processes : List Process) (timeQuantum : Int)
    (hdata : DataModel processes) (hq : 1 ≤ timeQuantum) (fuel : Nat) (st : RRState)
    (h : simulateRoundRobin fuel timeQuantum processes = some st) :
    st.readyQueue = [] ∧ st.rrProcesses.length ≤ st.processesCompleted ∧
    ∀ p ∈ st.rrProcesses, 0 ≤ p.remainingTime ∧
      (p.arrivalTime < st.currentTime → p.remainingTime = 0) ∧
      (p.remainingTime = 0 → p.arrivalTime + p.burstTime ≤ p.completionTime) := by
  obtain ⟨hinv, ht⟩ := rrLoop_inv hq fuel _ st (rrInit_inv processes hdata)
    (rrInit_timing processes hdata) h
  have hc := rrLoop_result_exits timeQuantum fuel _ st h
  simp only [rrCond, Bool.or_eq_false_iff, Bool.not_eq_false', List.isEmpty_iff,
    decide_eq_false_iff_not, not_lt] at hc
  refine ⟨hc.1, hc.2, ?_⟩
  intro p hp
  obtain ⟨i, hi, rfl⟩ := List.mem_iff_getElem.mp hp
  rw [← procAt_of_lt hi]
  have h0 := hinv.rem_nonneg i hi
  refine ⟨h0, ?_, ?_⟩
  · intro harr
    by_contra hne
    have := hinv.ready i hi (by omega) harr
    rw [hc.1] at this
    simp at this
  · intro hz
    exact ht.finished i hi (by omega)

/-! ## Round Robin: the claims -/

theorem dataModel_scenario : DataModel scenario := by
  intro p hp
  simp only [scenario, List.mem_cons, List.mem_singleton, List.not_mem_nil, or_false] at hp
  rcases hp with rfl | rfl | rfl <;> simp [Constructed, Process.new]

/-- C4. The Round Robin loop terminates: for every process set that meets the
data model (built by the constructor, `arrivalTime ≥ 0`, `burstTime ≥ 1`) and
every `timeQuantum ≥ 1` there is a number of iterations after which the `while`
loop of `simulateRoundRobin` has exited, in a state in which its condition is
false; any larger iteration budget gives that same final state. -/
theorem round_robin_terminates (processes : List Process) (timeQuantum : Int)
    (hdata : DataModel processes) (hq : 1 ≤ timeQuantum) :
    ∃ fuel st, (∀ k, simulateRoundRobin (fuel + k) timeQuantum processes = some st) ∧
      rrCond st = false := by
  obtain ⟨fuel, st, h⟩ := rrLoop_terminates_of_inv hq _ _ _ (rrInit processes)
    (rrInit_inv processes hdata) rfl rfl rfl
  exact ⟨fuel, st, fun k => rrLoop_mono timeQuantum fuel _ st h k,
    rrLoop_result_exits timeQuantum fuel _ st h⟩

/-- C4 at the scenario with `timeQuantum = 2`: the loop has exited within 16
iterations. -/
theorem round_robin_terminates_witness :
    DataModel scenario ∧ (1 : Int) ≤ 2 ∧
    (simulateRoundRobin 16 2 scenario).isSome = true ∧
    ∃ fuel st, (∀ k, simulateRoundRobin (fuel + k) 2 scenario = some st) ∧ rrCond st = false :=
  ⟨dataModel_scenario, by decide, by decide,
    round_robin_terminates scenario 2 dataModel_scenario (by decide)⟩

theorem rrLoop_unique (q : Int) (fuel1 fuel2 : Nat) (st r1 r2 : RRState)
    (h1 : rrLoop q fuel1 st = some r1) (h2 : rrLoop q fuel2 st = some r2) : r1 = r2 := by
  have e1 := rrLoop_mono q fuel1 st r1 h1 fuel2
  have e2 := rrLoop_mono q fuel2 st r2 h2 fuel1
  rw [Nat.add_comm] at e2
  rw [e1] at e2
  exact Option.some.inj e2

theorem procAt_of_ge {l : List Process} {i : Nat} (h : l.length ≤ i) : procAt l i = default := by
  simp [procAt, List.getElem?_eq_none h]

theorem runSlice_waitingTime (q : Int) (st : RRState) (cur : Nat) (rest : List Nat) :
    (runSlice q st cur rest).rrProcesses.map (fun p => p.waitingTime)
      = st.rrProcesses.map (fun p => p.waitingTime) := by
  rw [runSlice_rrProcesses]
  apply map_set_same
  by_cases hcur : cur < st.rrProcesses.length
  · rw [runSlice_procAt_cur q st cur rest hcur]
  · rw [procAt_of_ge (by rw [runSlice_length]; omega), procAt_of_ge (by omega)]

theorem rrIter_waitingTime (q : Int) (st : RRState) :
    (rrIter q st).rrProcesses.map (fun p => p.waitingTime)
      = st.rrProcesses.map (fun p => p.waitingTime) := by
  cases h : admission st with
  | nil => rw [rrIter_idle q st h]
  | cons cur rest => rw [rrIter_run q st cur rest h, runSlice_waitingTime]

theorem rrLoop_waitingTime (q : Int) (fuel : Nat) (st r : RRState)
    (h : rrLoop q fuel st = some r) :
    r.rrProcesses.map (fun p => p.waitingTime) = st.rrProcesses.map (fun p => p.waitingTime) := by
  induction fuel generalizing st with
  | zero =>
    by_cases hc : rrCond st = true
    · simp [rrLoop, hc] at h
    · have hc : rrCond st = false := by simpa using hc
      rw [rrLoop_exit q 0 st hc] at h
      cases h
      rfl
  | succ fuel ih =>
    by_cases hc : rrCond st = true
    · rw [rrLoop_continue q fuel st hc] at h
      rw [ih _ h, rrIter_waitingTime]
    · have hc : rrCond st = false := by simpa using hc
      rw [rrLoop_exit q _ st hc] at h
      cases h
      rfl

theorem earlyExit_run :
    simulateRoundRobin 2 4 earlyExitInput
      = some { rrProcesses :=
                 [{ Process.new 1 0 3 1 with remainingTime := 0, completionTime := 3 },
                  Process.new 2 10 4 1]
               readyQueue := []
               currentTime := 3
               processesCompleted := 2 } := by
  decide

/-- C3, the code at a failing input.  `earlyExitInput` meets the data model and
is sorted by arrival; with `timeQuantum = 4` the loop exits after two
iterations with the clock at 3 and `processesCompleted = 2`, and process 2 still
has `remainingTime = 4`: whenever the loop exits, the remaining times are 0
and 4.  (On the scenario of the claim, with `timeQuantum = 2`, the loop does
exit with all three at 0.) -/
theorem round_robin_exits_with_unfinished_process :
    DataModel earlyExitInput ∧ SortedByArrival earlyExitInput ∧
    (simulateRoundRobin 2 4 earlyExitInput).map
        (fun st => (st.currentTime, st.processesCompleted, st.readyQueue))
      = some (3, 2, []) ∧
    (∀ fuel st, simulateRoundRobin fuel 4 earlyExitInput = some st →
      st.rrProcesses.map (fun p => p.remainingTime) = [0, 4]) ∧
    (simulateRoundRobin 16 2 scenario).map
        (fun st => st.rrProcesses.map (fun p => p.remainingTime))
      = some [0, 0, 0] := by
  refine ⟨?_, ?_, by decide, ?_, by decide⟩
  · intro p hp
    simp only [earlyExitInput, List.mem_cons, List.mem_singleton, List.not_mem_nil, or_false] at hp
    rcases hp with rfl | rfl <;> simp [Constructed, Process.new]
  · simp [SortedByArrival, earlyExitInput, Process.new]
  · intro fuel st h
    have := rrLoop_unique 4 fuel 2 _ _ _ h earlyExit_run
    subst this
    decide

/-- C8, the code at a failing input.  On `earlyExitInput` with `timeQuantum = 4`
the loop exits with process 2 never run: its `completionTime` is still 0, below
`arrivalTime + burstTime = 14`. -/
theorem round_robin_unrun_process_completion :
    (simulateRoundRobin 2 4 earlyExitInput).isSome = true ∧
    ∀ fuel st, simulateRoundRobin fuel 4 earlyExitInput = some st →
      st.rrProcesses.map (fun p => (p.id, p.completionTime, p.arrivalTime + p.burstTime))
        = [(1, 3, 3), (2, 0, 14)] := by
  refine ⟨by decide, ?_⟩
  intro fuel st h
  have := rrLoop_unique 4 fuel 2 _ _ _ h earlyExit_run
  subst this
  decide

/-- C10, the code on every input and at the scenario.  `simulateRoundRobin`
never writes `waitingTime`: in the state in which the loop exits every process
has the `waitingTime` it had in `processes` (0 from the constructor).  On the
scenario with `timeQuantum = 2` the loop exits with `waitingTime` 0, 0, 0 while
`completionTime - arrivalTime - burstTime` is 4, 5, 6. -/
theorem round_robin_leaves_waitingTime :
    (∀ (fuel : Nat) (timeQuantum : Int) (processes : List Process) (st : RRState),
      simulateRoundRobin fuel timeQuantum processes = some st →
      st.rrProcesses.map (fun p => p.waitingTime) = processes.map (fun p => p.waitingTime)) ∧
    (simulateRoundRobin 16 2 scenario).map (fun st => st.rrProcesses.map
        (fun p => (p.waitingTime, p.completionTime - p.arrivalTime - p.burstTime)))
      = some [(0, 4), (0, 5), (0, 6)] := by
  refine ⟨?_, by decide⟩
  intro fuel q processes st h
  exact rrLoop_waitingTime q fuel _ st h

/-! ## The loop state after `k` iterations -/

theorem rrRun_of_exit (q : Int) (k : Nat) (st : RRState) (hc : rrCond st = false) :
    rrRun q k st = st := by
  cases k <;> simp [rrRun, hc]

theorem rrRun_succ (q : Int) (k : Nat) (st : RRState) :
    rrRun q (k + 1) st
      = if rrCond (rrRun q k st) then rrIter q (rrRun q k st) else rrRun q k st := by
  induction k generalizing st with
  | zero => simp [rrRun]
  | succ k ih =>
    by_cases hc : rrCond st = true
    · have h1 : rrRun q (k + 1 + 1) st = rrRun q (k + 1) (rrIter q st) := by
        simp [rrRun, hc]
      have h2 : rrRun q (k + 1) st = rrRun q k (rrIter q st) := by
        simp [rrRun, hc]
      rw [h1, h2, ih]
    · have hc : rrCond st = false := by simpa using hc
      rw [rrRun_of_exit q _ st hc, rrRun_of_exit q _ st hc]
      simp [hc]

theorem rrLoop_eq_rrRun (q : Int) (fuel : Nat) (st r : RRState)
    (h : rrLoop q fuel st = some r) : r = rrRun q fuel st := by
  induction fuel generalizing st with
  | zero =>
    by_cases hc : rrCond st = true
    · simp [rrLoop, hc] at h
    · have hc : rrCond st = false := by simpa using hc
      rw [rrLoop_exit q 0 st hc] at h
      cases h
      rfl
  | succ fuel ih =>
    by_cases hc : rrCond st = true
    · rw [rrLoop_continue q fuel st hc] at h
      have := ih _ h
      simp [rrRun, hc, this]
    · have hc : rrCond st = false := by simpa using hc
      rw [rrLoop_exit q _ st hc] at h
      cases h
      rw [rrRun_of_exit q _ _ hc]

theorem rrRun_induction (q : Int) (P : RRState → Prop) (hstep : ∀ st, P st → rrCond st = true →
    P (rrIter q st)) (st : RRState) (h0 : P st) (k : Nat) : P (rrRun q k st) := by
  induction k generalizing st with
  | zero => exact h0
  | succ k ih =>
    by_cases hc : rrCond st = true
    · simp only [rrRun, hc, if_true]
      exact ih _ (hstep st h0 hc)
    · have hc : rrCond st = false := by simpa using hc
      rw [rrRun_of_exit q _ st hc]
      exact h0

theorem rrRun_inv {q : Int} (hq : 1 ≤ q) (processes : List Process) (hdata : DataModel processes)
    (k : Nat) : RRInv (rrRun q k (rrInit processes)) :=
  rrRun_induction q RRInv (fun _ h _ => rrIter_inv hq h) _ (rrInit_inv processes hdata) k

/-! ## Priority is the FCFS pass over the sorted copy -/

theorem priorityLoop_eq_fcfsLoop (st : PriorityState) (ps : List Process) :
    (priorityLoop st ps).priorityProcesses
        = (fcfsLoop ⟨st.priorityProcesses, st.currentTime, st.totalWaitingTime,
            st.totalTurnaroundTime⟩ ps).fcfsProcesses ∧
    (priorityLoop st ps).currentTime
        = (fcfsLoop ⟨st.priorityProcesses, st.currentTime, st.totalWaitingTime,
            st.totalTurnaroundTime⟩ ps).currentTime ∧
    (priorityLoop st ps).totalWaitingTime
        = (fcfsLoop ⟨st.priorityProcesses, st.currentTime, st.totalWaitingTime,
            st.totalTurnaroundTime⟩ ps).totalWaitingTime ∧
    (priorityLoop st ps).totalTurnaroundTime
        = (fcfsLoop ⟨st.priorityProcesses, st.currentTime, st.totalWaitingTime,
            st.totalTurnaroundTime⟩ ps).totalTurnaroundTime := by
  induction ps generalizing st with
  | nil => simp [priorityLoop, fcfsLoop]
  | cons p ps ih =>
    simp only [priorityLoop, fcfsLoop]
    have := ih ⟨st.priorityProcesses ++ [(priorityVisit st.currentTime p).2],
      (priorityVisit st.currentTime p).1,
      st.totalWaitingTime + (priorityVisit st.currentTime p).2.waitingTime,
      st.totalTurnaroundTime + ((priorityVisit st.currentTime p).2.completionTime
        - (priorityVisit st.currentTime p).2.arrivalTime)⟩
    simp only [priorityVisit_eq, fcfsVisit_eq] at this ⊢
    exact this

/-- C13. The Priority simulator is the FCFS clock pass over the priority-sorted
copy: for every input and every behaviour of `std::sort`, the records that
`simulatePriorityScheduling` produces (so the `waitingTime` and
`completionTime` of each process), its final clock and its two totals are those
that the loop of `simulateFCFS` produces when run on the sorted sequence; each
record is the one the single-clock rule prescribes (`specRecord`: idle-advance
to arrival, waiting = clock - arrival, completion = clock + burst). -/
theorem priority_is_fcfs_on_sorted_copy (sort : List Process → List Process)
    (processes : List Process) :
    (simulatePriorityScheduling sort processes).priorityProcesses
      = (simulateFCFS (prioritySorted sort processes)).fcfsProcesses ∧
    (simulatePriorityScheduling sort processes).currentTime
      = (simulateFCFS (prioritySorted sort processes)).currentTime ∧
    (simulatePriorityScheduling sort processes).totalWaitingTime
      = (simulateFCFS (prioritySorted sort processes)).totalWaitingTime ∧
    (simulatePriorityScheduling sort processes).totalTurnaroundTime
      = (simulateFCFS (prioritySorted sort processes)).totalTurnaroundTime ∧
    ∀ (i : Nat) (p : Process), (prioritySorted sort processes)[i]? = some p →
      (simulatePriorityScheduling sort processes).priorityProcesses[i]?
        = some (specRecord (specClockFrom 0 (prioritySorted sort processes) i) p) := by
  have h := priorityLoop_eq_fcfsLoop ⟨[], 0, 0, 0⟩ (prioritySorted sort processes)
  refine ⟨h.1, h.2.1, h.2.2.1, h.2.2.2, ?_⟩
  intro i p hp
  rw [priority_result_eq, fcfsTrace_getElem?, hp]
  rfl

/-! ## The simulators on the two vectors -/

theorem procAt_append_length (done rest : List Process) (p : Process) :
    procAt (done ++ p :: rest) done.length = p := by
  rw [procAt_of_lt (by simp)]
  exact List.getElem_append_right (le_refl _) |>.trans (by simp)

theorem set_append_length (done rest : List Process) (p x : Process) :
    (done ++ p :: rest).set done.length x = done ++ x :: rest := by
  simp

theorem fcfsFrameVisit_copy (m done rest : List Process) (p : Process) (c tw tt : Int) :
    fcfsFrameVisit ⟨⟨m, done ++ p :: rest⟩, c, tw, tt⟩ ⟨Vec.copy, done.length⟩
      = ⟨⟨m, (done ++ [(fcfsVisit c p).2]) ++ rest⟩, (fcfsVisit c p).1,
          tw + (fcfsVisit c p).2.waitingTime,
          tt + ((fcfsVisit c p).2.completionTime - (fcfsVisit c p).2.arrivalTime)⟩ := by
  simp only [fcfsFrameVisit, fcfsVisit, Store.read, Store.write, procAt_append_length,
    set_append_length, List.append_assoc, List.singleton_append]

theorem foldl_fcfsFrameVisit (m rest done : List Process) (c tw tt : Int) :
    ((List.range' done.length rest.length).map (Ref.mk Vec.copy)).foldl fcfsFrameVisit
        ⟨⟨m, done ++ rest⟩, c, tw, tt⟩
      = ⟨⟨m, (fcfsLoop ⟨done, c, tw, tt⟩ rest).fcfsProcesses⟩,
          (fcfsLoop ⟨done, c, tw, tt⟩ rest).currentTime,
          (fcfsLoop ⟨done, c, tw, tt⟩ rest).totalWaitingTime,
          (fcfsLoop ⟨done, c, tw, tt⟩ rest).totalTurnaroundTime⟩ := by
  induction rest generalizing done c tw tt with
  | nil => simp [fcfsLoop]
  | cons p rest ih =>
    have hlen : (done ++ [(fcfsVisit c p).2]).length = done.length + 1 := by simp
    rw [List.length_cons, List.range'_succ, List.map_cons, List.foldl_cons,
      fcfsFrameVisit_copy, ← hlen, ih]
    rfl

theorem callFCFS_eq (self : ProcessScheduler) :
    callFCFS self
      = ⟨⟨self.processes, (simulateFCFS self.processes).fcfsProcesses⟩,
          (simulateFCFS self.processes).currentTime,
          (simulateFCFS self.processes).totalWaitingTime,
          (simulateFCFS self.processes).totalTurnaroundTime⟩ := by
  have h := foldl_fcfsFrameVisit self.processes self.processes [] 0 0 0
  simp only [List.length_nil, List.nil_append] at h
  simp only [callFCFS, Store.afterCopy, Store.refs, List.range_eq_range', simulateFCFS]
  exact h

theorem priorityFrameVisit_copy (m done rest : List Process) (p : Process) (c tw tt : Int) :
    priorityFrameVisit ⟨⟨m, done ++ p :: rest⟩, c, tw, tt⟩ ⟨Vec.copy, done.length⟩
      = ⟨⟨m, (done ++ [(priorityVisit c p).2]) ++ rest⟩, (priorityVisit c p).1,
          tw + (priorityVisit c p).2.waitingTime,
          tt + ((priorityVisit c p).2.completionTime - (priorityVisit c p).2.arrivalTime)⟩ := by
  simp only [priorityFrameVisit, priorityVisit, Store.read, Store.write, procAt_append_length,
    set_append_length, List.append_assoc, List.singleton_append]

theorem foldl_priorityFrameVisit (m rest done : List Process) (c tw tt : Int) :
    ((List.range' done.length rest.length).map (Ref.mk Vec.copy)).foldl priorityFrameVisit
        ⟨⟨m, done ++ rest⟩, c, tw, tt⟩
      = ⟨⟨m, (priorityLoop ⟨done, c, tw, tt⟩ rest).priorityProcesses⟩,
          (priorityLoop ⟨done, c, tw, tt⟩ rest).currentTime,
          (priorityLoop ⟨done, c, tw, tt⟩ rest).totalWaitingTime,
          (priorityLoop ⟨done, c, tw, tt⟩ rest).totalTurnaroundTime⟩ := by
  induction rest generalizing done c tw tt with
  | nil => simp [priorityLoop]
  | cons p rest ih =>
    have hlen : (done ++ [(priorityVisit c p).2]).length = done.length + 1 := by simp
    rw [List.length_cons, List.range'_succ, List.map_cons, List.foldl_cons,
      priorityFrameVisit_copy, ← hlen, ih]
    rfl

theorem callPriorityScheduling_eq (sort : List Process → List Process)
    (self : ProcessScheduler) :
    callPriorityScheduling sort self
      = ⟨⟨self.processes, (simulatePriorityScheduling sort self.processes).priorityProcesses⟩,
          (simulatePriorityScheduling sort self.processes).currentTime,
          (simulatePriorityScheduling sort self.processes).totalWaitingTime,
          (simulatePriorityScheduling sort self.processes).totalTurnaroundTime⟩ := by
  have h := foldl_priorityFrameVisit self.processes (sort self.processes) [] 0 0 0
  simp only [List.length_nil, List.nil_append] at h
  simp only [callPriorityScheduling, Store.afterCopy, Store.refs, List.range_eq_range',
    simulatePriorityScheduling, prioritySorted]
  exact h

theorem scanCopy_index (s : Store) (c : Ref → Process → Bool) :
    (s.scanCopy c).map (fun r => r.index) = scan s.copy (fun i p => c ⟨Vec.copy, i⟩ p) := by
  simp only [Store.scanCopy, Store.refs, scan, List.filter_map, List.map_map]
  have : ((fun r : Ref => r.index) ∘ Ref.mk Vec.copy) = id := rfl
  rw [this, List.map_id]
  rfl

theorem scanCopy_vec (s : Store) (c : Ref → Process → Bool) (r : Ref) (h : r ∈ s.scanCopy c) :
    r.vec = Vec.copy ∧ r.index < s.copy.length := by
  simp only [Store.scanCopy, Store.refs, List.mem_filter, List.mem_map, List.mem_range] at h
  obtain ⟨⟨i, hi, rfl⟩, _⟩ := h
  exact ⟨rfl, hi⟩

theorem rrFrameCond_eq (f : RRFrame) : rrFrameCond f = rrCond f.toState := by
  simp only [rrFrameCond, rrCond, RRFrame.toState]
  cases f.readyQueue <;> rfl

theorem rrFrameInit_toState (self : ProcessScheduler) :
    (rrFrameInit self).toState = rrInit self.processes := by
  simp only [rrFrameInit, RRFrame.toState, rrInit, scanCopy_index]
  rfl

theorem rrFrameAdmission_index (f : RRFrame) :
    (rrFrameAdmission f).map (fun r => r.index) = admission f.toState := by
  simp only [rrFrameAdmission, admission, RRFrame.toState, List.map_append, scanCopy_index]

theorem rrFrameSlice_toState (q : Int) (f : RRFrame) (cur : Nat) (rest : List Ref)
    (hcur : cur < f.store.copy.length) :
    (rrFrameSlice q f ⟨Vec.copy, cur⟩ rest).toState
      = runSlice q f.toState cur (rest.map (fun r => r.index)) := by
  simp only [rrFrameSlice, runSlice, Store.read, Store.write, RRFrame.toState,
    procAt_set_self _ hcur]
  split
  · simp only [List.map_append, scanCopy_index, ne_eq, Ref.mk.injEq, true_and]
  · simp only [List.map_append, scanCopy_index, ne_eq, Ref.mk.injEq, true_and, List.map_cons,
      List.map_nil]

theorem rrFrameSlice_processes (q : Int) (f : RRFrame) (cur : Nat) (rest : List Ref) :
    (rrFrameSlice q f ⟨Vec.copy, cur⟩ rest).store.processes = f.store.processes := by
  simp only [rrFrameSlice, Store.read, Store.write]
  split <;> rfl

theorem rrFrameSlice_length (q : Int) (f : RRFrame) (cur : Nat) (rest : List Ref) :
    (rrFrameSlice q f ⟨Vec.copy, cur⟩ rest).store.copy.length = f.store.copy.length := by
  simp only [rrFrameSlice, Store.read, Store.write]
  split <;> simp only [List.length_set]

theorem rrFrameSlice_valid (q : Int) (f : RRFrame) (cur : Nat) (rest : List Ref)
    (hcur : cur < f.store.copy.length)
    (hrest : ∀ r ∈ rest, r.vec = Vec.copy ∧ r.index < f.store.copy.length) :
    (rrFrameSlice q f ⟨Vec.copy, cur⟩ rest).Valid := by
  intro r hr
  rw [rrFrameSlice_length]
  simp only [rrFrameSlice] at hr
  split at hr
  · rcases List.mem_append.mp hr with h | h
    · exact hrest r h
    · have := scanCopy_vec _ _ r h
      simpa only [Store.write, List.length_set] using this
  · simp only [List.mem_append, List.mem_singleton] at hr
    rcases hr with (h | h) | h
    · exact hrest r h
    · have := scanCopy_vec _ _ r h
      simpa only [Store.write, List.length_set] using this
    · rw [h]
      exact ⟨rfl, hcur⟩

theorem rrFrameIter_spec (q : Int) (f : RRFrame) (hq : f.Valid) :
    (rrFrameIter q f).toState = rrIter q f.toState ∧
    (rrFrameIter q f).store.processes = f.store.processes ∧
    (rrFrameIter q f).Valid := by
  have hadm := rrFrameAdmission_index f
  have hvec : ∀ r ∈ rrFrameAdmission f, r.vec = Vec.copy ∧ r.index < f.store.copy.length := by
    intro r hr
    rcases List.mem_append.mp hr with h | h
    · exact hq r h
    · exact scanCopy_vec _ _ r h
  unfold rrFrameIter rrIter
  cases hA : rrFrameAdmission f with
  | nil =>
    rw [hA] at hadm
    rw [← hadm]
    exact ⟨rfl, rfl, fun r hr => absurd hr (List.not_mem_nil r)⟩
  | cons cur rest =>
    rw [hA] at hadm hvec
    rw [← hadm]
    have hc := hvec cur (List.mem_cons_self _ _)
    have hcur : cur = ⟨Vec.copy, cur.index⟩ := by
      have := hc.1
      cases cur
      simp only at this
      rw [this]
    have hrest : ∀ r ∈ rest, r.vec = Vec.copy ∧ r.index < f.store.copy.length :=
      fun r hr => hvec r (List.mem_cons_of_mem _ hr)
    simp only [List.map_cons]
    rw [hcur]
    exact ⟨rrFrameSlice_toState q f cur.index rest hc.2,
      rrFrameSlice_processes q f cur.index rest,
      rrFrameSlice_valid q f cur.index rest hc.2 hrest⟩

theorem rrFrameInit_valid (self : ProcessScheduler) : (rrFrameInit self).Valid :=
  fun r hr => scanCopy_vec (Store.afterCopy self) (fun _ process => process.arrivalTime == 0) r hr

theorem rrFrameLoop_spec (q : Int) (fuel : Nat) (f : RRFrame) (hq : f.Valid) :
    (rrFrameLoop q fuel f).map RRFrame.toState = rrLoop q fuel f.toState ∧
    ∀ g, rrFrameLoop q fuel f = some g → g.store.processes = f.store.processes := by
  induction fuel generalizing f with
  | zero =>
    simp only [rrFrameLoop, rrLoop, rrFrameCond_eq]
    split
    · exact ⟨rfl, fun g hg => by cases hg⟩
    · exact ⟨rfl, fun g hg => by cases hg; rfl⟩
  | succ fuel ih =>
    simp only [rrFrameLoop, rrLoop, rrFrameCond_eq]
    split
    · obtain ⟨h1, h2, h3⟩ := rrFrameIter_spec q f hq
      obtain ⟨i1, i2⟩ := ih (rrFrameIter q f) h3
      rw [h1] at i1
      exact ⟨i1, fun g hg => (i2 g hg).trans h2⟩
    · exact ⟨rfl, fun g hg => by cases hg; rfl⟩

theorem rrFrame_iterate (q : Int) (self : ProcessScheduler) (k : Nat) :
    ((rrFrameIter q)^[k] (rrFrameInit self)).toState = (rrIter q)^[k] (rrInit self.processes) ∧
    ((rrFrameIter q)^[k] (rrFrameInit self)).store.processes = self.processes ∧
    ((rrFrameIter q)^[k] (rrFrameInit self)).Valid := by
  induction k with
  | zero => exact ⟨rrFrameInit_toState self, rfl, rrFrameInit_valid self⟩
  | succ k ih =>
    obtain ⟨h1, h2, h3⟩ := ih
    obtain ⟨j1, j2, j3⟩ := rrFrameIter_spec q _ h3
    rw [Function.iterate_succ_apply', Function.iterate_succ_apply']
    refine ⟨?_, j2.trans h2, j3⟩
    rw [j1, h1]

theorem callRoundRobin_eq (fuel : Nat) (q : Int) (self : ProcessScheduler) :
    (callRoundRobin fuel q self).map RRFrame.toState = simulateRoundRobin fuel q self.processes ∧
    ∀ g, callRoundRobin fuel q self = some g → g.store.processes = self.processes := by
  have h := rrFrameLoop_spec q fuel (rrFrameInit self) (rrFrameInit_valid self)
  rw [rrFrameInit_toState] at h
  exact h

/-- C12. The simulators do not mutate the source set.  The member `processes`
and the local copy are two vectors, and every `Process&` and `Process*` of the
code names the vector it points into.  A call of `simulateFCFS` or of
`simulatePriorityScheduling` (any sort) ends with `processes` as it was; in
`simulateRoundRobin` (any quantum) `processes` is as it was after any number of
executions of the loop body and in the frame in which the loop exits.  The
locals each call ends with are those of the simulator run on the value of
`processes`, so Round Robin returns within the budget exactly when that run
does.  A second call of the same simulator on the scheduler as the first call
left it ends in the same frame.  On the scenario each simulator changes its
local copy and returns; the loop body of FCFS given a reference into
`processes` instead would change `processes`. -/
theorem simulators_leave_processes (self : ProcessScheduler)
    (sort : List Process → List Process) (fuel : Nat) (timeQuantum : Int) :
    ((callFCFS self).store.processes = self.processes ∧
      (callPriorityScheduling sort self).store.processes = self.processes ∧
      (∀ k : Nat,
        (Nat.iterate (rrFrameIter timeQuantum) k (rrFrameInit self)).store.processes
          = self.processes) ∧
      (∀ f, callRoundRobin fuel timeQuantum self = some f →
        f.store.processes = self.processes)) ∧
    ((callFCFS self).toFCFS = simulateFCFS self.processes ∧
      (callPriorityScheduling sort self).toPriority
        = simulatePriorityScheduling sort self.processes ∧
      (callRoundRobin fuel timeQuantum self).map RRFrame.toState
        = simulateRoundRobin fuel timeQuantum self.processes) ∧
    (callFCFS (ProcessScheduler.mk (callFCFS self).store.processes) = callFCFS self ∧
      callPriorityScheduling sort
          (ProcessScheduler.mk (callPriorityScheduling sort self).store.processes)
        = callPriorityScheduling sort self ∧
      (∀ f, callRoundRobin fuel timeQuantum self = some f →
        callRoundRobin fuel timeQuantum (ProcessScheduler.mk f.store.processes) = some f)) ∧
    ((callFCFS (ProcessScheduler.mk scenario)).store.copy ≠ scenario ∧
      (callPriorityScheduling (gnuStdSort priorityLess)
        (ProcessScheduler.mk scenario)).store.copy ≠ scenario ∧
      (callRoundRobin 16 2 (ProcessScheduler.mk scenario)).map
          (fun f => (decide (f.store.copy = scenario), f.store.processes))
        = some (false, scenario) ∧
      (fcfsFrameVisit
          { store := Store.afterCopy (ProcessScheduler.mk scenario), currentTime := 0,
            totalWaitingTime := 0, totalTurnaroundTime := 0 }
          { vec := Vec.member, index := 1 }).store.processes ≠ scenario) := by
  have hF := callFCFS_eq self
  have hP := callPriorityScheduling_eq sort self
  have hR := callRoundRobin_eq fuel timeQuantum self
  refine ⟨⟨?_, ?_, fun k => (rrFrame_iterate timeQuantum self k).2.1, hR.2⟩,
    ⟨?_, ?_, hR.1⟩, ⟨?_, ?_, ?_⟩, ⟨by decide, by decide, by decide, by decide⟩⟩
  · rw [hF]
  · rw [hP]
  · rw [hF]
    rfl
  · rw [hP]
    rfl
  · have h1 : (callFCFS self).store.processes = self.processes := by rw [hF]
    rw [h1]
  · have h1 : (callPriorityScheduling sort self).store.processes = self.processes := by rw [hP]
    rw [h1]
  · intro f hf
    rw [hR.2 f hf]
    exact hf

/-! ## Frame: what a slice leaves alone -/

theorem runSlice_map_frame {β : Type} (f : Process → β)
    (hf : ∀ (p : Process) (r c : Int),
      f { p with remainingTime := r, completionTime := c } = f p)
    (q : Int) (st : RRState) (cur : Nat) (rest : List Nat) :
    (runSlice q st cur rest).rrProcesses.map f = st.rrProcesses.map f := by
  rw [runSlice_rrProcesses]
  apply map_set_same
  by_cases hcur : cur < st.rrProcesses.length
  · rw [runSlice_procAt_cur q st cur rest hcur]
    exact hf _ _ _
  · rw [procAt_of_ge (by rw [runSlice_length]; omega), procAt_of_ge (by omega)]

theorem rrIter_map_frame {β : Type} (f : Process → β)
    (hf : ∀ (p : Process) (r c : Int),
      f { p with remainingTime := r, completionTime := c } = f p)
    (q : Int) (st : RRState) :
    (rrIter q st).rrProcesses.map f = st.rrProcesses.map f := by
  cases h : admission st with
  | nil => rw [rrIter_idle q st h]
  | cons cur rest => rw [rrIter_run q st cur rest h, runSlice_map_frame f hf]

theorem rrRun_map_frame {β : Type} (f : Process → β)
    (hf : ∀ (p : Process) (r c : Int),
      f { p with remainingTime := r, completionTime := c } = f p)
    (q : Int) (k : Nat) (st : RRState) :
    (rrRun q k st).rrProcesses.map f = st.rrProcesses.map f :=
  rrRun_induction q (fun s => s.rrProcesses.map f = st.rrProcesses.map f)
    (fun s h _ => (rrIter_map_frame f hf q s).trans h) st rfl k

theorem procAt_map_eq {β : Type} (f : Process → β) {l1 l2 : List Process}
    (h : l1.map f = l2.map f) (i : Nat) : f (procAt l1 i) = f (procAt l2 i) := by
  have h1 : ∀ l : List Process, f (procAt l i) = ((l.map f)[i]?).getD (f default) := by
    intro l
    simp only [procAt, List.getD_eq_getElem?_getD, List.getElem?_map]
    cases l[i]? <;> rfl
  rw [h1 l1, h1 l2, h]

theorem rrAt_arrival (q : Int) (processes : List Process) (k i : Nat) :
    (procAt (rrAt q processes k).rrProcesses i).arrivalTime = (procAt processes i).arrivalTime :=
  procAt_map_eq (fun p => p.arrivalTime)
    (rrRun_map_frame (fun p => p.arrivalTime) (fun _ _ _ => rfl) q k (rrInit processes)) i

theorem rrAt_burst (q : Int) (processes : List Process) (k i : Nat) :
    (procAt (rrAt q processes k).rrProcesses i).burstTime = (procAt processes i).burstTime :=
  procAt_map_eq (fun p => p.burstTime)
    (rrRun_map_frame (fun p => p.burstTime) (fun _ _ _ => rfl) q k (rrInit processes)) i

theorem rrAt_length (q : Int) (processes : List Process) (k : Nat) :
    (rrAt q processes k).rrProcesses.length = processes.length := by
  have := congrArg List.length
    (rrRun_map_frame (fun p => p.id) (fun _ _ _ => rfl) q k (rrInit processes))
  simpa [rrAt, rrInit] using this

theorem rrAt_succ (q : Int) (processes : List Process) (k : Nat) :
    rrAt q processes (k + 1)
      = if rrCond (rrAt q processes k) then rrIter q (rrAt q processes k)
        else rrAt q processes k :=
  rrRun_succ q k (rrInit processes)

/-! ## Bounds on `remainingTime` -/

theorem admission_lt {st : RRState} (hb : RRBounds st) (i : Nat) (hi : i ∈ admission st) :
    i < st.rrProcesses.length := by
  simp only [admission, List.mem_append, mem_scan] at hi
  rcases hi with hi | hi
  · exact hb.queue_lt i hi
  · exact hi.1

theorem runSlice_burst (q : Int) (st : RRState) (cur : Nat) (rest : List Nat) (j : Nat) :
    (procAt (runSlice q st cur rest).rrProcesses j).burstTime
      = (procAt st.rrProcesses j).burstTime :=
  procAt_map_eq (fun p => p.burstTime)
    (runSlice_map_frame (fun p => p.burstTime) (fun _ _ _ => rfl) q st cur rest) j

theorem runSlice_bounds {q : Int} (hq : 1 ≤ q) {st : RRState} (hb : RRBounds st) (cur : Nat)
    (rest : List Nat) (h : admission st = cur :: rest) : RRBounds (runSlice q st cur rest) := by
  have hcur : cur < st.rrProcesses.length := admission_lt hb cur (by rw [h]; simp)
  have hr := hb.rem_bounds cur hcur
  have he0 : 0 ≤ min q (procAt st.rrProcesses cur).remainingTime := le_min (by omega) hr.1
  have hele : min q (procAt st.rrProcesses cur).remainingTime
      ≤ (procAt st.rrProcesses cur).remainingTime := min_le_right _ _
  constructor
  · intro i hi
    rw [runSlice_length]
    rw [runSlice_mem_queue] at hi
    rcases hi with hi | ⟨h1, -⟩ | ⟨h5, -⟩
    · exact admission_lt hb i (by rw [h]; exact List.mem_cons_of_mem _ hi)
    · exact h1
    · rw [h5]; exact hcur
  · intro i hi
    rw [runSlice_length] at hi
    rw [runSlice_remaining q st cur rest hcur, runSlice_burst]
    by_cases hic : i = cur
    · subst hic
      simp only [if_true]
      constructor <;> omega
    · simp only [hic, if_false]
      exact hb.rem_bounds i hi

theorem rrIter_bounds {q : Int} (hq : 1 ≤ q) {st : RRState} (hb : RRBounds st) :
    RRBounds (rrIter q st) := by
  cases h : admission st with
  | nil =>
    rw [rrIter_idle q st h]
    exact ⟨by intro i hi; simp at hi, hb.rem_bounds⟩
  | cons cur rest => rw [rrIter_run q st cur rest h]; exact runSlice_bounds hq hb cur rest h

theorem rrInit_bounds (processes : List Process)
    (hps : ∀ p ∈ processes, Constructed p ∧ 1 ≤ p.burstTime) : RRBounds (rrInit processes) := by
  constructor
  · intro i hi
    simp only [rrInit, mem_scan] at hi
    exact hi.1
  · intro i hi
    obtain ⟨⟨h1, -, -⟩, h2⟩ := hps _ (procAt_mem hi)
    simp only [rrInit]
    constructor <;> omega

theorem rrAt_bounds {q : Int} (hq : 1 ≤ q) (processes : List Process)
    (hps : ∀ p ∈ processes, Constructed p ∧ 1 ≤ p.burstTime) (k : Nat) :
    RRBounds (rrAt q processes k) :=
  rrRun_induction q RRBounds (fun _ h _ => rrIter_bounds hq h) _ (rrInit_bounds processes hps) k

theorem rrIter_remaining_le {q : Int} (hq : 1 ≤ q) {st : RRState} (hb : RRBounds st) (i : Nat) :
    (procAt (rrIter q st).rrProcesses i).remainingTime
      ≤ (procAt st.rrProcesses i).remainingTime := by
  cases h : admission st with
  | nil => rw [rrIter_idle q st h]
  | cons cur rest =>
    have hcur : cur < st.rrProcesses.length := admission_lt hb cur (by rw [h]; simp)
    have hr := hb.rem_bounds cur hcur
    have he0 : 0 ≤ min q (procAt st.rrProcesses cur).remainingTime := le_min (by omega) hr.1
    rw [rrIter_run q st cur rest h, runSlice_remaining q st cur rest hcur]
    split
    · rename_i hic; subst hic; omega
    · exact le_refl _

theorem rrAt_remaining_step {q : Int} (hq : 1 ≤ q) (processes : List Process)
    (hps : ∀ p ∈ processes, Constructed p ∧ 1 ≤ p.burstTime) (k : Nat) (cur : Nat)
    (rest : List Nat) (hc : rrCond (rrAt q processes k) = true)
    (h : admission (rrAt q processes k) = cur :: rest) :
    rrAt q processes (k + 1) = runSlice q (rrAt q processes k) cur rest ∧
    cur < processes.length ∧
    ∀ j, (procAt (rrAt q processes (k + 1)).rrProcesses j).remainingTime
      = if j = cur then (procAt (rrAt q processes k).rrProcesses cur).remainingTime
          - min q (procAt (rrAt q processes k).rrProcesses cur).remainingTime
        else (procAt (rrAt q processes k).rrProcesses j).remainingTime := by
  have hb := rrAt_bounds hq processes hps k
  have hcur := admission_lt hb cur (by rw [h]; simp)
  have hstep : rrAt q processes (k + 1) = runSlice q (rrAt q processes k) cur rest := by
    rw [rrAt_succ, if_pos hc, rrIter_run q _ cur rest h]
  refine ⟨hstep, by rw [← rrAt_length q processes k]; exact hcur, ?_⟩
  intro j
  rw [hstep, runSlice_remaining q _ cur rest hcur]

/-- C17. The `remainingTime` invariant of Round Robin, for every process set
built by the constructor with `burstTime ≥ 1` and every `timeQuantum ≥ 1`: the
constructor sets `remainingTime = burstTime`, and so it is when the loop is
reached; at the head of the loop after any number `k` of iterations every
process has `0 ≤ remainingTime ≤ burstTime`, and its `remainingTime` after one
more iteration is not larger; an iteration that runs a slice (the queue after
admission is `cur :: rest`) lowers the `remainingTime` of `cur` by exactly
`min(timeQuantum, remainingTime)` and leaves that of every other process as it
was; an idle iteration leaves all of them as they were. -/
theorem rr_remainingTime_invariant (processes : List Process) (timeQuantum : Int)
    (hps : ∀ p ∈ processes, Constructed p ∧ 1 ≤ p.burstTime) (hq : 1 ≤ timeQuantum) :
    (∀ _id _arrival _burst _priority : Int,
      (Process.new _id _arrival _burst _priority).remainingTime
        = (Process.new _id _arrival _burst _priority).burstTime) ∧
    (∀ p ∈ (rrAt timeQuantum processes 0).rrProcesses, p.remainingTime = p.burstTime) ∧
    (∀ k i, i < processes.length →
      0 ≤ (procAt (rrAt timeQuantum processes k).rrProcesses i).remainingTime ∧
      (procAt (rrAt timeQuantum processes k).rrProcesses i).remainingTime
        ≤ (procAt processes i).burstTime ∧
      (procAt (rrAt timeQuantum processes (k + 1)).rrProcesses i).remainingTime
        ≤ (procAt (rrAt timeQuantum processes k).rrProcesses i).remainingTime) ∧
    (∀ k cur rest, rrCond (rrAt timeQuantum processes k) = true →
      admission (rrAt timeQuantum processes k) = cur :: rest →
      rrAt timeQuantum processes (k + 1) = runSlice timeQuantum (rrAt timeQuantum processes k)
        cur rest ∧
      cur < processes.length ∧
      ∀ j, (procAt (rrAt timeQuantum processes (k + 1)).rrProcesses j).remainingTime
        = if j = cur then
            (procAt (rrAt timeQuantum processes k).rrProcesses cur).remainingTime
              - min timeQuantum
                  (procAt (rrAt timeQuantum processes k).rrProcesses cur).remainingTime
          else (procAt (rrAt timeQuantum processes k).rrProcesses j).remainingTime) ∧
    (∀ k, rrCond (rrAt timeQuantum processes k) = true →
      admission (rrAt timeQuantum processes k) = [] →
      (rrAt timeQuantum processes (k + 1)).rrProcesses
        = (rrAt timeQuantum processes k).rrProcesses) := by
  refine ⟨fun _ _ _ _ => rfl, ?_, ?_, ?_, ?_⟩
  · intro p hp
    exact (hps p hp).1.1
  · intro k i hi
    have hb := rrAt_bounds hq processes hps k
    have hi' : i < (rrAt timeQuantum processes k).rrProcesses.length := by
      rw [rrAt_length]; exact hi
    have h1 := hb.rem_bounds i hi'
    rw [rrAt_burst] at h1
    refine ⟨h1.1, h1.2, ?_⟩
    rw [rrAt_succ]
    split
    · exact rrIter_remaining_le hq hb i
    · exact le_refl _
  · intro k cur rest hc h
    exact rrAt_remaining_step hq processes hps k cur rest hc h
  · intro k hc h
    rw [rrAt_succ, if_pos hc, rrIter_idle timeQuantum _ h]

/-- C17 at the scenario with `timeQuantum = 2`: the first iteration runs a slice
of process 0 and lowers its `remainingTime` from 5 to 3. -/
theorem rr_remainingTime_invariant_witness :
    (∀ p ∈ scenario, Constructed p ∧ 1 ≤ p.burstTime) ∧ (1 : Int) ≤ 2 ∧
    (rrAt 2 scenario 0).rrProcesses.map (fun p => p.remainingTime) = [5, 3, 1] ∧
    (rrAt 2 scenario 1).rrProcesses.map (fun p => p.remainingTime) = [3, 3, 1] ∧
    admission (rrAt 2 scenario 0) = [0, 0] ∧
    ((∀ _id _arrival _burst _priority : Int,
      (Process.new _id _arrival _burst _priority).remainingTime
        = (Process.new _id _arrival _burst _priority).burstTime) ∧
    (∀ p ∈ (rrAt 2 scenario 0).rrProcesses, p.remainingTime = p.burstTime) ∧
    (∀ k i, i < scenario.length →
      0 ≤ (procAt (rrAt 2 scenario k).rrProcesses i).remainingTime ∧
      (procAt (rrAt 2 scenario k).rrProcesses i).remainingTime
        ≤ (procAt scenario i).burstTime ∧
      (procAt (rrAt 2 scenario (k + 1)).rrProcesses i).remainingTime
        ≤ (procAt (rrAt 2 scenario k).rrProcesses i).remainingTime) ∧
    (∀ k cur rest, rrCond (rrAt 2 scenario k) = true →
      admission (rrAt 2 scenario k) = cur :: rest →
      rrAt 2 scenario (k + 1) = runSlice 2 (rrAt 2 scenario k) cur rest ∧
      cur < scenario.length ∧
      ∀ j, (procAt (rrAt 2 scenario (k + 1)).rrProcesses j).remainingTime
        = if j = cur then
            (procAt (rrAt 2 scenario k).rrProcesses cur).remainingTime
              - min 2 (procAt (rrAt 2 scenario k).rrProcesses cur).remainingTime
          else (procAt (rrAt 2 scenario k).rrProcesses j).remainingTime) ∧
    (∀ k, rrCond (rrAt 2 scenario k) = true →
      admission (rrAt 2 scenario k) = [] →
      (rrAt 2 scenario (k + 1)).rrProcesses = (rrAt 2 scenario k).rrProcesses)) :=
  ⟨fun p hp => ⟨(dataModel_scenario p hp).1, (dataModel_scenario p hp).2.2⟩, by decide,
    by decide, by decide, by decide,
    rr_remainingTime_invariant scenario 2
      (fun p hp => ⟨(dataModel_scenario p hp).1, (dataModel_scenario p hp).2.2⟩) (by decide)⟩

theorem rrAt_inv {q : Int} (hq : 1 ≤ q) (processes : List Process) (hdata : DataModel processes)
    (k : Nat) : RRInv (rrAt q processes k) :=
  rrRun_inv hq processes hdata k

/-! ## The clock never goes back -/

theorem specClockFrom_take (c : Int) (ps : List Process) (k : Nat) :
    specClockFrom c (ps.take k) (ps.take k).length = specClockFrom c ps k := by
  unfold specClockFrom
  rw [List.take_length]

theorem fcfsClockAfter_eq (processes : List Process) (k : Nat) :
    fcfsClockAfter processes k = specClockFrom 0 processes k := by
  rw [fcfsClockAfter, fcfsLoop_currentTime, specClockFrom_take]

theorem priorityClockAfter_eq (sort : List Process → List Process) (processes : List Process)
    (k : Nat) :
    priorityClockAfter sort processes k = specClockFrom 0 (prioritySorted sort processes) k := by
  rw [priorityClockAfter,
    (priorityLoop_eq_fcfsLoop ⟨[], 0, 0, 0⟩ ((prioritySorted sort processes).take k)).2.1,
    fcfsLoop_currentTime, specClockFrom_take]

theorem specClockFrom_le_succ (c : Int) (ps : List Process) (hb : ∀ p ∈ ps, 1 ≤ p.burstTime)
    (k : Nat) : specClockFrom c ps k ≤ specClockFrom c ps (k + 1) := by
  rcases Nat.lt_or_ge k ps.length with hk | hk
  · exact specClockFrom_mono c ps hb k (k + 1) (by omega) (by omega)
  · simp [specClockFrom, List.take_of_length_le hk, List.take_of_length_le (Nat.le_succ_of_le hk)]

theorem rrIter_currentTime_le {q : Int} (hq : 1 ≤ q) {st : RRState} (hb : RRBounds st) :
    st.currentTime ≤ (rrIter q st).currentTime := by
  cases h : admission st with
  | nil =>
    rw [rrIter_idle q st h]
    simp
  | cons cur rest =>
    have hcur : cur < st.rrProcesses.length := admission_lt hb cur (by rw [h]; simp)
    have hr := hb.rem_bounds cur hcur
    have he0 : 0 ≤ min q (procAt st.rrProcesses cur).remainingTime := le_min (by omega) hr.1
    rw [rrIter_run q st cur rest h, runSlice_currentTime]
    omega

/-- C16. Monotonic clock, for every process set of the data model, every sort
that meets the contract of `std::sort` and every `timeQuantum ≥ 1`: the value
of `currentTime` after `k + 1` iterations of the loop of `simulateFCFS`, of
`simulatePriorityScheduling` and of `simulateRoundRobin` is at least its value
after `k` iterations; and inside an iteration of the two single-clock loops
neither assignment (the idle advance to `arrivalTime`, then `+= burstTime`)
lowers it.  An iteration of Round Robin assigns `currentTime` once. -/
theorem clock_is_monotonic (sort : List Process → List Process)
    (hsort : IsStdSort priorityLess sort) (processes : List Process) (timeQuantum : Int)
    (hdata : DataModel processes) (hq : 1 ≤ timeQuantum) (k : Nat) :
    fcfsClockAfter processes k ≤ fcfsClockAfter processes (k + 1) ∧
    priorityClockAfter sort processes k ≤ priorityClockAfter sort processes (k + 1) ∧
    (rrAt timeQuantum processes k).currentTime
      ≤ (rrAt timeQuantum processes (k + 1)).currentTime ∧
    (∀ (c : Int) (p : Process), p ∈ processes →
      c ≤ (if c < p.arrivalTime then p.arrivalTime else c) ∧
      (if c < p.arrivalTime then p.arrivalTime else c) ≤ (fcfsVisit c p).1 ∧
      (if c < p.arrivalTime then p.arrivalTime else c) ≤ (priorityVisit c p).1) ∧
    fcfsClockAfter processes processes.length = (simulateFCFS processes).currentTime ∧
    priorityClockAfter sort processes processes.length
      = (simulatePriorityScheduling sort processes).currentTime := by
  have hb : ∀ p ∈ processes, 1 ≤ p.burstTime := fun p hp => (hdata p hp).2.2
  have hbs : ∀ p ∈ prioritySorted sort processes, 1 ≤ p.burstTime := by
    intro p hp
    exact hb p ((hsort.perm processes).mem_iff.mp hp)
  refine ⟨?_, ?_, ?_, ?_, ?_, ?_⟩
  · rw [fcfsClockAfter_eq, fcfsClockAfter_eq]
    exact specClockFrom_le_succ 0 processes hb k
  · rw [priorityClockAfter_eq, priorityClockAfter_eq]
    exact specClockFrom_le_succ 0 _ hbs k
  · have hbd := rrAt_bounds hq processes (fun p hp => ⟨(hdata p hp).1, (hdata p hp).2.2⟩) k
    rw [rrAt_succ]
    split
    · exact rrIter_currentTime_le hq hbd
    · exact le_refl _
  · intro c p hp
    have := hb p hp
    simp only [fcfsVisit, priorityVisit]
    split <;> refine ⟨?_, ?_, ?_⟩ <;> omega
  · rw [fcfsClockAfter, List.take_length]
    rfl
  · have hlen : processes.length = (prioritySorted sort processes).length :=
      ((hsort.perm processes).length_eq).symm
    rw [priorityClockAfter, hlen, List.take_length]
    rfl

/-- C16 at the scenario with insertion sort and `timeQuantum = 2`, between the
first and the second iteration: FCFS 5 ≤ 8, Priority 5 ≤ 8, Round Robin 2 ≤ 4. -/
theorem clock_is_monotonic_witness :
    IsStdSort priorityLess (insertionSort priorityLess) ∧ DataModel scenario ∧ (1 : Int) ≤ 2 ∧
    (fcfsClockAfter scenario 1, fcfsClockAfter scenario 2) = (5, 8) ∧
    (priorityClockAfter (insertionSort priorityLess) scenario 1,
      priorityClockAfter (insertionSort priorityLess) scenario 2) = (5, 8) ∧
    ((rrAt 2 scenario 1).currentTime, (rrAt 2 scenario 2).currentTime) = (2, 4) ∧
    (fcfsClockAfter scenario 1 ≤ fcfsClockAfter scenario (1 + 1) ∧
    priorityClockAfter (insertionSort priorityLess) scenario 1
      ≤ priorityClockAfter (insertionSort priorityLess) scenario (1 + 1) ∧
    (rrAt 2 scenario 1).currentTime ≤ (rrAt 2 scenario (1 + 1)).currentTime ∧
    (∀ (c : Int) (p : Process), p ∈ scenario →
      c ≤ (if c < p.arrivalTime then p.arrivalTime else c) ∧
      (if c < p.arrivalTime then p.arrivalTime else c) ≤ (fcfsVisit c p).1 ∧
      (if c < p.arrivalTime then p.arrivalTime else c) ≤ (priorityVisit c p).1) ∧
    fcfsClockAfter scenario scenario.length = (simulateFCFS scenario).currentTime ∧
    priorityClockAfter (insertionSort priorityLess) scenario scenario.length
      = (simulatePriorityScheduling (insertionSort priorityLess) scenario).currentTime) :=
  ⟨insertionSort_isStdSort, dataModel_scenario, by decide, by decide, by decide, by decide,
    clock_is_monotonic (insertionSort priorityLess) insertionSort_isStdSort scenario 2
      dataModel_scenario (by decide) 1⟩

/-! ## Tick accounting -/

theorem remainingSum_set (l : List Process) (i : Nat) (x : Process) (hi : i < l.length) :
    remainingSum (l.set i x) + (procAt l i).remainingTime = remainingSum l + x.remainingTime := by
  induction l generalizing i with
  | nil => simp at hi
  | cons a l ih =>
    cases i with
    | zero => simp [remainingSum, procAt]; omega
    | succ i =>
      have := ih i (by simpa using hi)
      simp only [remainingSum, procAt, List.set_cons_succ, List.map_cons, List.sum_cons,
        List.getD_cons_succ] at this ⊢
      omega

theorem runSlice_ticks (q : Int) (st : RRState) (cur : Nat) (rest : List Nat)
    (hcur : cur < st.rrProcesses.length) :
    (runSlice q st cur rest).currentTime + remainingSum (runSlice q st cur rest).rrProcesses
      = st.currentTime + remainingSum st.rrProcesses := by
  have h := remainingSum_set st.rrProcesses cur
    (procAt (runSlice q st cur rest).rrProcesses cur) hcur
  rw [← runSlice_rrProcesses, runSlice_remaining q st cur rest hcur] at h
  simp only [if_true] at h
  rw [runSlice_currentTime]
  omega

theorem rrIter_ticks {q : Int} {st : RRState} (hb : RRBounds st) :
    (rrIter q st).currentTime + remainingSum (rrIter q st).rrProcesses
      = st.currentTime + remainingSum st.rrProcesses
        + (if (admission st).isEmpty then 1 else 0) := by
  cases h : admission st with
  | nil =>
    rw [rrIter_idle q st h]
    simp only [List.isEmpty_nil, if_true]
    omega
  | cons cur rest =>
    have hcur : cur < st.rrProcesses.length := admission_lt hb cur (by rw [h]; simp)
    rw [rrIter_run q st cur rest h, runSlice_ticks q st cur rest hcur]
    simp

theorem rrRun_ticks {q : Int} (hq : 1 ≤ q) (k : Nat) (st : RRState) (hb : RRBounds st) :
    (rrRun q k st).currentTime + remainingSum (rrRun q k st).rrProcesses
      = st.currentTime + remainingSum st.rrProcesses + idleIterations q k st := by
  induction k generalizing st with
  | zero => simp [rrRun, idleIterations]
  | succ k ih =>
    by_cases hc : rrCond st = true
    · simp only [rrRun, idleIterations, hc, if_true]
      rw [ih _ (rrIter_bounds hq hb), rrIter_ticks hb]
      split <;> push_cast <;> omega
    · have hc : rrCond st = false := by simpa using hc
      simp [rrRun, idleIterations, hc]

theorem remainingSum_eq_burstSum (processes : List Process)
    (hps : ∀ p ∈ processes, Constructed p ∧ 1 ≤ p.burstTime) :
    remainingSum processes = burstSum processes := by
  unfold remainingSum burstSum
  congr 1
  apply List.map_congr_left
  intro p hp
  exact (hps p hp).1.1

theorem idleIterations_stable (q : Int) (fuel : Nat) (st r : RRState)
    (h : rrLoop q fuel st = some r) (j : Nat) :
    idleIterations q (fuel + j) st = idleIterations q fuel st := by
  induction fuel generalizing st with
  | zero =>
    by_cases hc : rrCond st = true
    · simp [rrLoop, hc] at h
    · have hc : rrCond st = false := by simpa using hc
      cases j <;> simp [idleIterations, hc]
  | succ fuel ih =>
    by_cases hc : rrCond st = true
    · rw [rrLoop_continue q fuel st hc] at h
      have : fuel + 1 + j = (fuel + j) + 1 := by omega
      rw [this]
      simp only [idleIterations, hc, if_true]
      rw [ih _ h]
    · have hc : rrCond st = false := by simpa using hc
      have : fuel + 1 + j = (fuel + j) + 1 := by omega
      rw [this]
      simp [idleIterations, hc]

/-- The tick accounting that does hold when the Round Robin loop exits, for
every process set built by the constructor with `burstTime ≥ 1` and every
`timeQuantum ≥ 1`: the final clock plus the work left undone equals the sum of
all `burstTime` values plus the number of idle iterations. -/
theorem round_robin_ticks (processes : List Process) (timeQuantum : Int)
    (hps : ∀ p ∈ processes, Constructed p ∧ 1 ≤ p.burstTime) (hq : 1 ≤ timeQuantum)
    (fuel : Nat) (st : RRState) (h : simulateRoundRobin fuel timeQuantum processes = some st) :
    st.currentTime + remainingSum st.rrProcesses
      = burstSum processes + idleIterations timeQuantum fuel (rrInit processes) := by
  have e := rrLoop_eq_rrRun timeQuantum fuel _ st h
  have := rrRun_ticks hq fuel (rrInit processes) (rrInit_bounds processes hps)
  rw [← e] at this
  rw [this, ← remainingSum_eq_burstSum processes hps]
  simp [rrInit]

/-- C11, the code at a failing input.  On `earlyExitInput` with
`timeQuantum = 4` the loop exits with the clock at 3; the sum of the
`burstTime` values is 7 and no iteration was idle, so the final clock is not
the sum of the bursts plus the idle iterations: the 4 ticks of process 2, which
never ran, are missing.  (On the scenario of the claim, with `timeQuantum = 2`,
the final clock is 9 = 5 + 3 + 1 with no idle iteration.) -/
theorem round_robin_ticks_fall_short :
    (∀ fuel st, simulateRoundRobin fuel 4 earlyExitInput = some st → st.currentTime = 3) ∧
    (simulateRoundRobin 2 4 earlyExitInput).isSome = true ∧
    burstSum earlyExitInput = 7 ∧
    (∀ k, idleIterations 4 k (rrInit earlyExitInput) = 0) ∧
    (simulateRoundRobin 16 2 scenario).map (fun st => st.currentTime) = some 9 ∧
    burstSum scenario = 9 ∧ idleIterations 2 16 (rrInit scenario) = 0 := by
  refine ⟨?_, by decide, by decide, ?_, by decide, by decide, by decide⟩
  · intro fuel st h
    have := rrLoop_unique 4 fuel 2 _ _ _ h earlyExit_run
    subst this
    rfl
  · intro k
    rcases Nat.lt_or_ge k 2 with hk | hk
    · interval_cases k <;> decide
    · obtain ⟨j, rfl⟩ := Nat.exists_eq_add_of_le hk
      rw [idleIterations_stable 4 2 _ _ earlyExit_run j]
      decide

theorem scenario_run :
    simulateRoundRobin 16 2 scenario
      = some { rrProcesses :=
                 [{ Process.new 1 0 5 1 with remainingTime := 0, completionTime := 9 },
                  { Process.new 2 1 3 1 with remainingTime := 0, completionTime := 9 },
                  { Process.new 3 2 1 1 with remainingTime := 0, completionTime := 9 }]
               readyQueue := []
               currentTime := 9
               processesCompleted := 13 } := by
  decide

/-- C14, the code at a failing input.  On the scenario with `timeQuantum = 2`
process 3 (index 2) has `remainingTime = 1` after three iterations and 0 after
four; that fourth iteration, its slice, ends with the clock at 7 and records
`completionTime = 7`.  Two iterations later a stale queue entry of process 3 has
been popped and its `completionTime` is 8, and when the loop exits it is 9, as
is that of process 1, which finished at 8.  In general a slice writes the clock
into `completionTime` whenever the dequeued process has no work left after it,
also when it had none before. -/
theorem round_robin_completion_overwritten :
    ((rrAt 2 scenario 3).rrProcesses.map (fun p => p.remainingTime) = [1, 1, 1] ∧
      (rrAt 2 scenario 4).rrProcesses.map (fun p => (p.remainingTime, p.completionTime))
        = [(1, 0), (1, 0), (0, 7)] ∧
      (rrAt 2 scenario 4).currentTime = 7 ∧
      (rrAt 2 scenario 6).rrProcesses.map (fun p => (p.remainingTime, p.completionTime))
        = [(0, 8), (1, 0), (0, 8)]) ∧
    (∀ fuel st, simulateRoundRobin fuel 2 scenario = some st →
      st.rrProcesses.map (fun p => (p.id, p.remainingTime, p.completionTime))
        = [(1, 0, 9), (2, 0, 9), (3, 0, 9)]) ∧
    (simulateRoundRobin 16 2 scenario).isSome = true ∧
    (∀ (timeQuantum : Int) (st : RRState) (cur : Nat) (rest : List Nat),
      cur < st.rrProcesses.length →
      (procAt st.rrProcesses cur).remainingTime
        - min timeQuantum (procAt st.rrProcesses cur).remainingTime ≤ 0 →
      (procAt (runSlice timeQuantum st cur rest).rrProcesses cur).completionTime
        = (runSlice timeQuantum st cur rest).currentTime) := by
  refine ⟨⟨by decide, by decide, by decide, by decide⟩, ?_, by decide, ?_⟩
  · intro fuel st h
    have := rrLoop_unique 2 fuel 16 _ _ _ h scenario_run
    subst this
    decide
  · intro q st cur rest hcur hle
    rw [runSlice_procAt_cur q st cur rest hcur, runSlice_currentTime]
    simp [hle]

theorem count_scan (procs : List Process) (c : Nat → Process → Bool) (i : Nat)
    (hi : i < procs.length) (hc : c i (procAt procs i) = true) : (scan procs c).count i = 1 := by
  apply List.count_eq_one_of_mem
  · exact (List.nodup_range _).filter _
  · exact mem_scan.mpr ⟨hi, hc⟩

/-- C15, the code at a failing input.  Whatever the process set, a process with
`arrivalTime = 0` stands twice in the ready queue after the first admission
scan: once from the scan of lines 106-110 and once from that of lines 113-117,
both at clock 0.  On the scenario with `timeQuantum = 2` the queue is `[0, 0]`
after the first admission scan and `[0, 1, 2, 0]` after the first iteration
(the re-scan of lines 132-138 and the re-enqueue of line 145 do not look at
what the queue holds), so process 1 occurs twice. -/
theorem round_robin_duplicate_admission :
    (∀ (processes : List Process) (i : Nat), i < processes.length →
      (procAt processes i).arrivalTime = 0 →
      (admission (rrInit processes)).count i = 2) ∧
    DataModel scenario ∧
    admission (rrAt 2 scenario 0) = [0, 0] ∧
    (rrAt 2 scenario 1).readyQueue = [0, 1, 2, 0] ∧
    ¬ (rrAt 2 scenario 1).readyQueue.Nodup := by
  refine ⟨?_, dataModel_scenario, by decide, by decide, by decide⟩
  intro processes i hi harr
  have h1 := count_scan processes (fun _ process => process.arrivalTime == 0) i hi
    (by simpa using harr)
  simp only [admission, rrInit, List.count_append, h1]

/-! ## Simultaneous arrival -/

theorem runSlice_readyNow {q : Int} {st : RRState} (hb : RRBounds st) (cur : Nat)
    (rest : List Nat) (h : admission st = cur :: rest) : ReadyNow (runSlice q st cur rest) := by
  have hcur : cur < st.rrProcesses.length := admission_lt hb cur (by rw [h]; simp)
  intro i hi hrem harr
  rw [runSlice_length] at hi
  rw [runSlice_remaining q st cur rest hcur] at hrem
  rw [runSlice_arrival q st cur rest hcur, runSlice_currentTime] at harr
  rw [runSlice_mem_queue]
  by_cases hic : i = cur
  · subst hic
    simp only [if_true] at hrem
    exact Or.inr (Or.inr ⟨rfl, hrem⟩)
  · simp only [hic, if_false] at hrem
    exact Or.inr (Or.inl ⟨hi, hic, harr, hrem⟩)

theorem allAtZero_not_idle {st : RRState} (hz : RRAllAtZero st) (hc : rrCond st = true) :
    admission st ≠ [] := by
  intro h
  have hq : st.readyQueue = [] := by
    simp only [admission, List.append_eq_nil] at h
    exact h.1
  have hlt : st.processesCompleted < st.rrProcesses.length := by
    simpa [rrCond, hq] using hc
  obtain ⟨i, hi, hrem⟩ := exists_live_of_countP_lt st.rrProcesses
    (lt_of_le_of_lt hz.inv.counted hlt)
  have := hz.readyNow i hi hrem (by rw [hz.arrivals i hi]; exact hz.clock_nonneg)
  rw [hq] at this
  simp at this

theorem rrIter_allAtZero {q : Int} (hq : 1 ≤ q) {st : RRState} (hz : RRAllAtZero st)
    (hc : rrCond st = true) : RRAllAtZero (rrIter q st) := by
  cases h : admission st with
  | nil => exact absurd h (allAtZero_not_idle hz hc)
  | cons cur rest =>
    have hcur : cur < st.rrProcesses.length := admission_lt hz.bounds cur (by rw [h]; simp)
    have hr := hz.bounds.rem_bounds cur hcur
    have he0 : 0 ≤ min q (procAt st.rrProcesses cur).remainingTime := le_min (by omega) hr.1
    rw [rrIter_run q st cur rest h]
    refine ⟨runSlice_inv hq hz.inv cur rest h, runSlice_bounds hq hz.bounds cur rest h,
      runSlice_readyNow hz.bounds cur rest h, ?_, ?_⟩
    · rw [runSlice_currentTime]
      have := hz.clock_nonneg
      omega
    · intro i hi
      rw [runSlice_length] at hi
      rw [runSlice_arrival q st cur rest hcur]
      exact hz.arrivals i hi

theorem rrInit_allAtZero (processes : List Process)
    (hps : ∀ p ∈ processes, Constructed p ∧ p.arrivalTime = 0 ∧ 1 ≤ p.burstTime) :
    RRAllAtZero (rrInit processes) := by
  refine ⟨rrInit_inv processes ?_, rrInit_bounds processes ?_, ?_, ?_, ?_⟩
  · intro p hp
    obtain ⟨h1, h2, h3⟩ := hps p hp
    exact ⟨h1, by omega, h3⟩
  · intro p hp
    exact ⟨(hps p hp).1, (hps p hp).2.2⟩
  · intro i hi _ _
    simp only [rrInit, mem_scan, beq_iff_eq]
    exact ⟨hi, (hps _ (procAt_mem hi)).2.1⟩
  · simp [rrInit]
  · intro i hi
    exact (hps _ (procAt_mem hi)).2.1

theorem idleIterations_allAtZero {q : Int} (hq : 1 ≤ q) (k : Nat) (st : RRState)
    (hz : RRAllAtZero st) : idleIterations q k st = 0 := by
  induction k generalizing st with
  | zero => rfl
  | succ k ih =>
    by_cases hc : rrCond st = true
    · simp only [idleIterations, hc, if_true]
      rw [ih _ (rrIter_allAtZero hq hz hc)]
      have := allAtZero_not_idle hz hc
      cases h : admission st with
      | nil => exact absurd h this
      | cons cur rest => simp
    · have hc : rrCond st = false := by simpa using hc
      simp [idleIterations, hc]

theorem remainingSum_eq_zero (l : List Process) (h : ∀ p ∈ l, p.remainingTime = 0) :
    remainingSum l = 0 := by
  induction l with
  | nil => rfl
  | cons a l ih =>
    have h1 := h a (by simp)
    have h2 := ih (fun p hp => h p (List.mem_cons_of_mem _ hp))
    simp only [remainingSum, List.map_cons, List.sum_cons] at h2 ⊢
    omega

/-- C19. Round Robin with simultaneous arrival: for every process set built by
the constructor in which every process has `arrivalTime = 0` and
`burstTime ≥ 1`, and every `timeQuantum ≥ 1`, no iteration of the loop takes the
idle branch (whenever the loop condition holds, the queue after the admission
scan is not empty, and the count of idle iterations stays 0), the loop does
exit, and in the state in which it exits every `remainingTime` is 0 and
`currentTime` is the sum of all `burstTime` values. -/
theorem rr_simultaneous_arrival (processes : List Process) (timeQuantum : Int)
    (hps : ∀ p ∈ processes, Constructed p ∧ p.arrivalTime = 0 ∧ 1 ≤ p.burstTime)
    (hq : 1 ≤ timeQuantum) :
    (∀ k, rrCond (rrAt timeQuantum processes k) = true →
      admission (rrAt timeQuantum processes k) ≠ []) ∧
    (∀ k, idleIterations timeQuantum k (rrInit processes) = 0) ∧
    (∃ fuel st, simulateRoundRobin fuel timeQuantum processes = some st) ∧
    (∀ fuel st, simulateRoundRobin fuel timeQuantum processes = some st →
      (∀ p ∈ st.rrProcesses, p.remainingTime = 0) ∧ st.currentTime = burstSum processes) := by
  have hz0 := rrInit_allAtZero processes hps
  have hzk : ∀ k, RRAllAtZero (rrAt timeQuantum processes k) := fun k =>
    rrRun_induction timeQuantum RRAllAtZero (fun _ h hc => rrIter_allAtZero hq h hc) _ hz0 k
  have hdata : DataModel processes := by
    intro p hp
    obtain ⟨h1, h2, h3⟩ := hps p hp
    exact ⟨h1, by omega, h3⟩
  have hps' : ∀ p ∈ processes, Constructed p ∧ 1 ≤ p.burstTime :=
    fun p hp => ⟨(hps p hp).1, (hps p hp).2.2⟩
  refine ⟨fun k hc => allAtZero_not_idle (hzk k) hc,
    fun k => idleIterations_allAtZero hq k _ hz0, ?_, ?_⟩
  · obtain ⟨fuel, st, h⟩ := rrLoop_terminates_of_inv hq _ _ _ (rrInit processes)
      (rrInit_inv processes hdata) rfl rfl rfl
    exact ⟨fuel, st, h⟩
  · intro fuel st h
    have e := rrLoop_eq_rrRun timeQuantum fuel _ st h
    have hz : RRAllAtZero st := by rw [e]; exact hzk fuel
    have hc := rrLoop_result_exits timeQuantum fuel _ st h
    simp only [rrCond, Bool.or_eq_false_iff, Bool.not_eq_false', List.isEmpty_iff,
      decide_eq_false_iff_not, not_lt] at hc
    have hzero : ∀ p ∈ st.rrProcesses, p.remainingTime = 0 := by
      intro p hp
      obtain ⟨i, hi, rfl⟩ := List.mem_iff_getElem.mp hp
      rw [← procAt_of_lt hi]
      have h0 := (hz.bounds.rem_bounds i hi).1
      by_contra hne
      have := hz.readyNow i hi (by omega) (by rw [hz.arrivals i hi]; exact hz.clock_nonneg)
      rw [hc.1] at this
      simp at this
    refine ⟨hzero, ?_⟩
    have ht := round_robin_ticks processes timeQuantum hps' hq fuel st h
    rw [remainingSum_eq_zero _ hzero, idleIterations_allAtZero hq fuel _ hz0] at ht
    simpa using ht

/-- C19 at a concrete input: two processes arriving at 0 with bursts 1 and 3,
`timeQuantum = 2`; the loop exits with both at 0 and the clock at 4. -/
theorem rr_simultaneous_arrival_witness :
    (∀ p ∈ [Process.new 1 0 1 1, Process.new 2 0 3 1],
      Constructed p ∧ p.arrivalTime = 0 ∧ 1 ≤ p.burstTime) ∧ (1 : Int) ≤ 2 ∧
    (simulateRoundRobin 8 2 [Process.new 1 0 1 1, Process.new 2 0 3 1]).map
        (fun st => (st.rrProcesses.map (fun p => p.remainingTime), st.currentTime))
      = some ([0, 0], 4) ∧
    ((∀ k, rrCond (rrAt 2 [Process.new 1 0 1 1, Process.new 2 0 3 1] k) = true →
      admission (rrAt 2 [Process.new 1 0 1 1, Process.new 2 0 3 1] k) ≠ []) ∧
    (∀ k, idleIterations 2 k (rrInit [Process.new 1 0 1 1, Process.new 2 0 3 1]) = 0) ∧
    (∃ fuel st, simulateRoundRobin fuel 2 [Process.new 1 0 1 1, Process.new 2 0 3 1] = some st) ∧
    (∀ fuel st, simulateRoundRobin fuel 2 [Process.new 1 0 1 1, Process.new 2 0 3 1] = some st →
      (∀ p ∈ st.rrProcesses, p.remainingTime = 0) ∧
      st.currentTime = burstSum [Process.new 1 0 1 1, Process.new 2 0 3 1])) :=
  ⟨by simp [Constructed, Process.new], by decide, by decide,
    rr_simultaneous_arrival [Process.new 1 0 1 1, Process.new 2 0 3 1] 2
      (by simp [Constructed, Process.new]) (by decide)⟩

/-! ## No process runs before it arrives -/

theorem admission_arrived {st : RRState} (ha : RRArrived st) (i : Nat) (hi : i ∈ admission st) :
    i < st.rrProcesses.length ∧ (procAt st.rrProcesses i).arrivalTime ≤ st.currentTime := by
  simp only [admission, List.mem_append, mem_scan, beq_iff_eq] at hi
  rcases hi with hi | ⟨h1, h2⟩
  · exact ha.queue_valid i hi
  · exact ⟨h1, le_of_eq h2⟩

theorem runSlice_arrived {q : Int} (hq : 1 ≤ q) {st : RRState} (ha : RRArrived st) (cur : Nat)
    (rest : List Nat) (h : admission st = cur :: rest) : RRArrived (runSlice q st cur rest) := by
  obtain ⟨hcur, hcurarr⟩ := admission_arrived ha cur (by rw [h]; simp)
  have hrem0 := ha.rem_nonneg cur hcur
  have he0 : 0 ≤ min q (procAt st.rrProcesses cur).remainingTime := le_min (by omega) hrem0
  have hele : min q (procAt st.rrProcesses cur).remainingTime
      ≤ (procAt st.rrProcesses cur).remainingTime := min_le_right _ _
  constructor
  · intro i hi
    rw [runSlice_length, runSlice_arrival q st cur rest hcur, runSlice_currentTime]
    rw [runSlice_mem_queue] at hi
    rcases hi with hi | ⟨h1, -, h3, -⟩ | ⟨h5, -⟩
    · have := admission_arrived ha i (by rw [h]; exact List.mem_cons_of_mem _ hi)
      exact ⟨this.1, by omega⟩
    · exact ⟨h1, h3⟩
    · subst h5
      exact ⟨hcur, by omega⟩
  · intro i hi
    rw [runSlice_length] at hi
    rw [runSlice_remaining q st cur rest hcur]
    split
    · omega
    · exact ha.rem_nonneg i hi

theorem rrIter_arrived {q : Int} (hq : 1 ≤ q) {st : RRState} (ha : RRArrived st) :
    RRArrived (rrIter q st) := by
  cases h : admission st with
  | nil =>
    rw [rrIter_idle q st h]
    exact ⟨by intro i hi; simp at hi, ha.rem_nonneg⟩
  | cons cur rest => rw [rrIter_run q st cur rest h]; exact runSlice_arrived hq ha cur rest h

theorem rrInit_arrived (processes : List Process)
    (hps : ∀ p ∈ processes, Constructed p ∧ 0 ≤ p.arrivalTime ∧ 0 ≤ p.burstTime) :
    RRArrived (rrInit processes) := by
  constructor
  · intro i hi
    simp only [rrInit, mem_scan, beq_iff_eq] at hi
    exact ⟨hi.1, le_of_eq hi.2⟩
  · intro i hi
    obtain ⟨⟨h1, -, -⟩, -, h3⟩ := hps _ (procAt_mem hi)
    simp only [rrInit]
    omega

/-- No process is in the queue before it arrives, for every process set built by
the constructor with `arrivalTime ≥ 0` and `burstTime ≥ 0` and every
`timeQuantum ≥ 1`: the clock never goes back, and every push admits only
processes that have arrived. -/
theorem rr_queue_arrived (processes : List Process) (timeQuantum : Int)
    (hps : ∀ p ∈ processes, Constructed p ∧ 0 ≤ p.arrivalTime ∧ 0 ≤ p.burstTime)
    (hq : 1 ≤ timeQuantum) (k : Nat) :
    (∀ i ∈ (rrAt timeQuantum processes k).readyQueue,
      i < processes.length ∧
      (procAt processes i).arrivalTime ≤ (rrAt timeQuantum processes k).currentTime) ∧
    (∀ i ∈ admission (rrAt timeQuantum processes k),
      i < processes.length ∧
      (procAt processes i).arrivalTime ≤ (rrAt timeQuantum processes k).currentTime) ∧
    (∀ cur rest, rrCond (rrAt timeQuantum processes k) = true →
      admission (rrAt timeQuantum processes k) = cur :: rest →
      rrAt timeQuantum processes (k + 1)
        = runSlice timeQuantum (rrAt timeQuantum processes k) cur rest ∧
      (procAt processes cur).arrivalTime ≤ (rrAt timeQuantum processes k).currentTime) := by
  have ha : RRArrived (rrAt timeQuantum processes k) :=
    rrRun_induction timeQuantum RRArrived (fun _ h _ => rrIter_arrived hq h) _
      (rrInit_arrived processes hps) k
  refine ⟨?_, ?_, ?_⟩
  · intro i hi
    have := ha.queue_valid i hi
    rw [rrAt_length, rrAt_arrival] at this
    exact this
  · intro i hi
    have := admission_arrived ha i hi
    rw [rrAt_length, rrAt_arrival] at this
    exact this
  · intro cur rest hc h
    have := admission_arrived ha cur (by rw [h]; simp)
    rw [rrAt_arrival] at this
    refine ⟨?_, this.2⟩
    rw [rrAt_succ, if_pos hc, rrIter_run timeQuantum _ cur rest h]

/-- C18. Round Robin never runs a process before it arrives, for every process
set of the data model and every `timeQuantum ≥ 1`: after any number `k` of
iterations every entry of the ready queue, at the loop head and after the
admission scan, points to a process of the input whose `arrivalTime` is at most
`currentTime`; so the process `cur` that an iteration dequeues starts its slice
at a clock value that is at least its `arrivalTime`. -/
theorem rr_never_runs_before_arrival (processes : List Process) (timeQuantum : Int)
    (hdata : DataModel processes) (hq : 1 ≤ timeQuantum) (k : Nat) :
    (∀ i ∈ (rrAt timeQuantum processes k).readyQueue,
      i < processes.length ∧
      (procAt processes i).arrivalTime ≤ (rrAt timeQuantum processes k).currentTime) ∧
    (∀ i ∈ admission (rrAt timeQuantum processes k),
      i < processes.length ∧
      (procAt processes i).arrivalTime ≤ (rrAt timeQuantum processes k).currentTime) ∧
    (∀ cur rest, rrCond (rrAt timeQuantum processes k) = true →
      admission (rrAt timeQuantum processes k) = cur :: rest →
      rrAt timeQuantum processes (k + 1)
        = runSlice timeQuantum (rrAt timeQuantum processes k) cur rest ∧
      (procAt processes cur).arrivalTime ≤ (rrAt timeQuantum processes k).currentTime) :=
  rr_queue_arrived processes timeQuantum
    (fun p hp => ⟨(hdata p hp).1, (hdata p hp).2.1, le_trans (by decide) (hdata p hp).2.2⟩) hq k

/-- C18 at the scenario with `timeQuantum = 2`, after one iteration: the clock is
2 and the queue holds processes 0, 1, 2, 0, which arrived at 0, 1, 2, 0. -/
theorem rr_never_runs_before_arrival_witness :
    DataModel scenario ∧ (1 : Int) ≤ 2 ∧
    (rrAt 2 scenario 1).readyQueue = [0, 1, 2, 0] ∧ (rrAt 2 scenario 1).currentTime = 2 ∧
    ((∀ i ∈ (rrAt 2 scenario 1).readyQueue,
      i < scenario.length ∧
      (procAt scenario i).arrivalTime ≤ (rrAt 2 scenario 1).currentTime) ∧
    (∀ i ∈ admission (rrAt 2 scenario 1),
      i < scenario.length ∧
      (procAt scenario i).arrivalTime ≤ (rrAt 2 scenario 1).currentTime) ∧
    (∀ cur rest, rrCond (rrAt 2 scenario 1) = true →
      admission (rrAt 2 scenario 1) = cur :: rest →
      rrAt 2 scenario (1 + 1) = runSlice 2 (rrAt 2 scenario 1) cur rest ∧
      (procAt scenario cur).arrivalTime ≤ (rrAt 2 scenario 1).currentTime)) :=
  ⟨dataModel_scenario, by decide, by decide, by decide,
    rr_never_runs_before_arrival scenario 2 dataModel_scenario (by decide) 1⟩

/-! ## A zero quantum -/

theorem procAt_set_same_list (l : List Process) (i : Nat) : l.set i (procAt l i) = l := by
  by_cases hi : i < l.length
  · apply List.ext_getElem?
    intro j
    by_cases hj : i = j
    · subst hj
      simp [procAt, hi]
    · rw [List.getElem?_set_ne hj]
  · exact List.set_eq_of_length_le (by omega)

theorem runSlice_stuck (processes : List Process)
    (hps : ∀ p ∈ processes, Constructed p ∧ 0 ≤ p.burstTime) (i0 : Nat)
    (hi0 : i0 < processes.length) (harr0 : (procAt processes i0).arrivalTime = 0)
    (hburst0 : 1 ≤ (procAt processes i0).burstTime)
    {st : RRState} (hs : RRStuck processes i0 st) (cur : Nat) (rest : List Nat)
    (h : admission st = cur :: rest) : RRStuck processes i0 (runSlice 0 st cur rest) := by
  have hrem : ∀ i, i < processes.length → 0 ≤ (procAt processes i).remainingTime := by
    intro i hi
    obtain ⟨⟨h1, -, -⟩, h3⟩ := hps _ (procAt_mem hi)
    omega
  have hrem0 : 1 ≤ (procAt processes i0).remainingTime := by
    obtain ⟨⟨h1, -, -⟩, -⟩ := hps _ (procAt_mem hi0)
    omega
  have hcur : cur < processes.length := by
    have hm : cur ∈ admission st := by rw [h]; simp
    simp only [admission, List.mem_append, mem_scan] at hm
    rcases hm with hm | hm
    · exact hs.queue_lt cur hm
    · rw [← hs.same]; exact hm.1
  have hrc := hrem cur hcur
  have hcc : (procAt processes cur).completionTime = 0 := (hps _ (procAt_mem hcur)).1.2.2
  have he : min (0 : Int) (procAt st.rrProcesses cur).remainingTime = 0 := by
    rw [hs.same]; exact min_eq_left hrc
  have hcur' : cur < st.rrProcesses.length := by rw [hs.same]; exact hcur
  have hpc : procAt (runSlice 0 st cur rest).rrProcesses cur = procAt st.rrProcesses cur := by
    rw [runSlice_procAt_cur 0 st cur rest hcur', he, hs.clock, hs.same]
    simp only [sub_zero, add_zero, hcc, ite_self]
    revert hcc
    generalize procAt processes cur = p
    intro hcc
    cases p
    simp only at hcc
    subst hcc
    rfl
  refine ⟨?_, ?_, ?_, ?_⟩
  · rw [runSlice_currentTime, he, hs.clock]; rfl
  · rw [runSlice_rrProcesses, hpc, procAt_set_same_list, hs.same]
  · intro i hi
    rw [runSlice_mem_queue] at hi
    rcases hi with hi | ⟨h1, -⟩ | ⟨h5, -⟩
    · have hm : i ∈ admission st := by rw [h]; exact List.mem_cons_of_mem _ hi
      simp only [admission, List.mem_append, mem_scan] at hm
      rcases hm with hm | hm
      · exact hs.queue_lt i hm
      · rw [← hs.same]; exact hm.1
    · rw [← hs.same]; exact h1
    · rw [h5]; exact hcur
  · rw [runSlice_mem_queue, he, hs.clock, hs.same]
    by_cases hic : i0 = cur
    · subst hic
      exact Or.inr (Or.inr ⟨rfl, by omega⟩)
    · exact Or.inr (Or.inl ⟨hi0, hic, by omega, by omega⟩)

theorem rrIter_stuck (processes : List Process)
    (hps : ∀ p ∈ processes, Constructed p ∧ 0 ≤ p.burstTime) (i0 : Nat)
    (hi0 : i0 < processes.length) (harr0 : (procAt processes i0).arrivalTime = 0)
    (hburst0 : 1 ≤ (procAt processes i0).burstTime)
    {st : RRState} (hs : RRStuck processes i0 st) : RRStuck processes i0 (rrIter 0 st) := by
  cases h : admission st with
  | nil =>
    have : i0 ∈ admission st := by
      simp only [admission, List.mem_append]
      exact Or.inl hs.waiting
    rw [h] at this
    simp at this
  | cons cur rest =>
    rw [rrIter_run 0 st cur rest h]
    exact runSlice_stuck processes hps i0 hi0 harr0 hburst0 hs cur rest h

theorem stuck_cond {processes : List Process} {i0 : Nat} {st : RRState}
    (hs : RRStuck processes i0 st) : rrCond st = true := by
  have : st.readyQueue ≠ [] := List.ne_nil_of_mem hs.waiting
  cases hq : st.readyQueue with
  | nil => exact absurd hq this
  | cons a l => simp [rrCond, hq]

/-- With `timeQuantum = 0` nothing moves, for every process set built by the
constructor in which no `burstTime` is negative and some process has
`arrivalTime = 0` and `burstTime ≥ 1`. -/
theorem rr_zero_quantum_stuck (processes : List Process)
    (hps : ∀ p ∈ processes, Constructed p ∧ 0 ≤ p.burstTime)
    (hex : ∃ p ∈ processes, p.arrivalTime = 0 ∧ 1 ≤ p.burstTime) :
    (∀ k, (rrAt 0 processes k).currentTime = 0 ∧
      (rrAt 0 processes k).rrProcesses = processes ∧
      (rrAt 0 processes k).rrProcesses.map (fun p => p.remainingTime)
        = processes.map (fun p => p.remainingTime) ∧
      (rrAt 0 processes k).readyQueue ≠ [] ∧
      rrCond (rrAt 0 processes k) = true) ∧
    (∀ fuel, simulateRoundRobin fuel 0 processes = none) := by
  obtain ⟨p0, hp0, harr0, hburst0⟩ := hex
  obtain ⟨i0, hi0, rfl⟩ := List.mem_iff_getElem.mp hp0
  rw [← procAt_of_lt hi0] at harr0 hburst0
  have hs0 : RRStuck processes i0 (rrInit processes) := by
    refine ⟨rfl, rfl, ?_, ?_⟩
    · intro i hi
      simp only [rrInit, mem_scan] at hi
      exact hi.1
    · simp only [rrInit, mem_scan, beq_iff_eq]
      exact ⟨hi0, harr0⟩
  have hsk : ∀ k, RRStuck processes i0 (rrAt 0 processes k) := fun k =>
    rrRun_induction 0 (RRStuck processes i0)
      (fun _ h _ => rrIter_stuck processes hps i0 hi0 harr0 hburst0 h) _ hs0 k
  constructor
  · intro k
    have hs := hsk k
    refine ⟨hs.clock, hs.same, by rw [hs.same], List.ne_nil_of_mem hs.waiting, stuck_cond hs⟩
  · intro fuel
    cases h : simulateRoundRobin fuel 0 processes with
    | none => rfl
    | some st =>
      have e := rrLoop_eq_rrRun 0 fuel _ st h
      have hc := rrLoop_result_exits 0 fuel _ st h
      have := stuck_cond (hsk fuel)
      rw [e] at hc
      rw [show rrAt 0 processes fuel = rrRun 0 fuel (rrInit processes) from rfl] at this
      rw [this] at hc
      exact absurd hc (by simp)

/-- C20. Round Robin with a zero quantum makes no progress: for
`timeQuantum = 0` and every process set of the data model that contains a
process with `arrivalTime = 0` and `burstTime ≥ 1`, after any number `k` of loop
iterations the clock is still 0, the vector is as it was when the loop was
reached (so every `remainingTime` is unchanged), the ready queue is not empty
and the loop condition holds; so no iteration budget reaches an exit. -/
theorem rr_zero_quantum_no_progress (processes : List Process)
    (hdata : DataModel processes)
    (hex : ∃ p ∈ processes, p.arrivalTime = 0 ∧ 1 ≤ p.burstTime) :
    (∀ k, (rrAt 0 processes k).currentTime = 0 ∧
      (rrAt 0 processes k).rrProcesses = processes ∧
      (rrAt 0 processes k).rrProcesses.map (fun p => p.remainingTime)
        = processes.map (fun p => p.remainingTime) ∧
      (rrAt 0 processes k).readyQueue ≠ [] ∧
      rrCond (rrAt 0 processes k) = true) ∧
    (∀ fuel, simulateRoundRobin fuel 0 processes = none) :=
  rr_zero_quantum_stuck processes
    (fun p hp => ⟨(hdata p hp).1, le_trans (by decide) (hdata p hp).2.2⟩) hex

/-- C20 at the scenario: after five iterations with `timeQuantum = 0` the clock
is 0, the remaining times are 5, 3, 1 and process 0 stands six times in the
queue. -/
theorem rr_zero_quantum_no_progress_witness :
    DataModel scenario ∧
    (∃ p ∈ scenario, p.arrivalTime = 0 ∧ 1 ≤ p.burstTime) ∧
    (rrAt 0 scenario 5).readyQueue = [0, 0, 0, 0, 0, 0] ∧
    (rrAt 0 scenario 5).rrProcesses.map (fun p => p.remainingTime) = [5, 3, 1] ∧
    ((∀ k, (rrAt 0 scenario k).currentTime = 0 ∧
      (rrAt 0 scenario k).rrProcesses = scenario ∧
      (rrAt 0 scenario k).rrProcesses.map (fun p => p.remainingTime)
        = scenario.map (fun p => p.remainingTime) ∧
      (rrAt 0 scenario k).readyQueue ≠ [] ∧
      rrCond (rrAt 0 scenario k) = true) ∧
    (∀ fuel, simulateRoundRobin fuel 0 scenario = none)) :=
  ⟨dataModel_scenario, ⟨Process.new 1 0 5 1, by simp [scenario], by decide⟩, by decide,
    by decide,
    rr_zero_quantum_no_progress scenario dataModel_scenario
      ⟨Process.new 1 0 5 1, by simp [scenario], by decide⟩⟩

end Lab2Anisimov
